import Mathlib

/-!
Verification of the pico-DTFT signal-classification engine.

The development shallowly embeds the C sources:
  - src/lib/lut.h / lut.c     : trigonometric lookup tables with linear interpolation
  - src/lib/dtft.c            : serial and dual-core DTFT evaluation
  - src/lib/signal.c          : pattern pipeline and nearest-neighbour classifier

Floating-point values are modelled as real numbers (exact arithmetic); the
classifier, which uses only ring operations and comparisons, is embedded
polymorphically over a linear ordered commutative ring so that concrete
instances can be evaluated at `ℤ`.
-/

set_option autoImplicit false

open Real

/-! ## TrigLUT (src/lib/lut.h, src/lib/lut.c) -/

/-- LUT_SIZE from lut.h line 8: size of the sine/cosine lookup tables. -/
def LUT_SIZE : ℕ := 1024

/-- LUT_MASK from lut.h line 9: `LUT_SIZE - 1`, used to mask table indices. -/
def LUT_MASK : ℤ := 1023

/-- LUT_SCALE from lut.h line 10: `LUT_SIZE / (2π)`, radians-to-index scale. -/
noncomputable def LUT_SCALE : ℝ := (LUT_SIZE : ℝ) / (2 * π)

/-- Entry `j` of `sin_lut` after `init_trig_lut` (lut.c lines 8-14):
`sinf((2π j)/LUT_SIZE)`.  Indexed over `ℤ`; the code only reads masked
indices in `[0, LUT_SIZE)`. -/
noncomputable def sin_lut (j : ℤ) : ℝ := Real.sin (2 * π * (j : ℝ) / (LUT_SIZE : ℝ))

/-- Entry `j` of `cos_lut` after `init_trig_lut` (lut.c lines 8-14). -/
noncomputable def cos_lut (j : ℤ) : ℝ := Real.cos (2 * π * (j : ℝ) / (LUT_SIZE : ℝ))

/-- The C cast `(int)scaled` of a float truncates toward zero. -/
noncomputable def cTrunc (s : ℝ) : ℤ := if 0 ≤ s then ⌊s⌋ else ⌈s⌉

/-- Index computed by `fast_sin`/`fast_cos` (lut.h lines 28-31): scale the
angle by `LUT_SCALE`, truncate to an integer, mask with `LUT_MASK`. -/
noncomputable def lut_index (angle : ℝ) : ℤ := Int.land (cTrunc (angle * LUT_SCALE)) LUT_MASK

/-- Fractional part kept by `fast_sin`/`fast_cos` (lut.h line 30):
`scaled - index`, taken before masking. -/
noncomputable def lut_frac (angle : ℝ) : ℝ :=
  angle * LUT_SCALE - ((cTrunc (angle * LUT_SCALE)) : ℝ)

/-- Shared body of `fast_sin` and `fast_cos` (lut.h lines 26-36 and 43-53,
identical except for the table read): linearly interpolate, with weight
`frac`, between the masked entry and the next (also masked) entry. -/
noncomputable def lut_interp (tbl : ℤ → ℝ) (angle : ℝ) : ℝ :=
  tbl (lut_index angle)
    + lut_frac angle * (tbl (Int.land (lut_index angle + 1) LUT_MASK) - tbl (lut_index angle))

/-- fast_sin from lut.h lines 26-36. -/
noncomputable def fast_sin (angle : ℝ) : ℝ := lut_interp sin_lut angle

/-- fast_cos from lut.h lines 43-53. -/
noncomputable def fast_cos (angle : ℝ) : ℝ := lut_interp cos_lut angle

/-! ### Masking is reduction modulo `LUT_SIZE` -/

set_option maxRecDepth 8192 in
theorem nat_ldiff_mask (m : ℕ) : Nat.ldiff 1023 m = 1023 - m % 1024 := by
  have hx : Nat.ldiff 1023 m = 1023 ^^^ (1023 &&& m) := by
    apply Nat.eq_of_testBit_eq
    intro i
    have h1023 : Nat.testBit 1023 i = decide (i < 10) := by
      have h : (1023 : ℕ) = 2 ^ 10 - 1 := by norm_num
      rw [h, Nat.testBit_two_pow_sub_one]
    rw [Nat.testBit_ldiff, Nat.testBit_xor, Nat.testBit_and, h1023]
    cases hb : Nat.testBit m i <;> by_cases h : i < 10 <;> simp [h]
  have hand : 1023 &&& m = m % 1024 := by
    rw [Nat.and_comm]
    have h1023 : (1023 : ℕ) = 2 ^ 10 - 1 := by norm_num
    rw [h1023, Nat.and_pow_two_sub_one_eq_mod]
  have hxor : ∀ r : ℕ, r < 1024 → 1023 ^^^ r = 1023 - r := by decide
  rw [hx, hand, hxor _ (Nat.mod_lt _ (by norm_num))]

theorem int_land_mask (i : ℤ) : Int.land i 1023 = i % 1024 := by
  cases i with
  | ofNat n =>
      have h : Int.land (Int.ofNat n) 1023 = ((Nat.land n 1023 : ℕ) : ℤ) := rfl
      have h' : Nat.land n 1023 = n % 1024 := by
        have h1023 : (1023 : ℕ) = 2 ^ 10 - 1 := by norm_num
        calc Nat.land n 1023 = n &&& 1023 := rfl
          _ = n % 1024 := by rw [h1023, Nat.and_pow_two_sub_one_eq_mod]
      rw [h, h']
      show ((n % 1024 : ℕ) : ℤ) = ((n : ℕ) : ℤ) % 1024
      omega
  | negSucc m =>
      have h : Int.land (Int.negSucc m) 1023 = ((Nat.ldiff 1023 m : ℕ) : ℤ) := rfl
      rw [h, nat_ldiff_mask, Int.negSucc_eq]
      omega

/-! ### Interpolation error bound -/

theorem abs_sin_sub_sin_le (x y : ℝ) : |Real.sin x - Real.sin y| ≤ |x - y| := by
  rw [Real.sin_sub_sin]
  calc |2 * Real.sin ((x - y) / 2) * Real.cos ((x + y) / 2)|
      = 2 * |Real.sin ((x - y) / 2)| * |Real.cos ((x + y) / 2)| := by
        rw [abs_mul, abs_mul]; norm_num
    _ ≤ 2 * |(x - y) / 2| * 1 := by
        apply mul_le_mul
        · exact mul_le_mul_of_nonneg_left Real.abs_sin_le_abs (by norm_num)
        · exact Real.abs_cos_le_one _
        · exact abs_nonneg _
        · positivity
    _ = |x - y| := by rw [abs_div, abs_two]; ring

theorem abs_cos_sub_cos_le (x y : ℝ) : |Real.cos x - Real.cos y| ≤ |x - y| := by
  rw [Real.cos_sub_cos]
  calc |(-2) * Real.sin ((x + y) / 2) * Real.sin ((x - y) / 2)|
      = 2 * |Real.sin ((x + y) / 2)| * |Real.sin ((x - y) / 2)| := by
        rw [abs_mul, abs_mul]; norm_num
    _ ≤ 2 * 1 * |(x - y) / 2| := by
        apply mul_le_mul
        · exact mul_le_mul_of_nonneg_left (Real.abs_sin_le_one _) (by norm_num)
        · exact Real.abs_sin_le_abs
        · exact abs_nonneg _
        · norm_num
    _ = |x - y| := by rw [abs_div, abs_two]; ring

theorem cTrunc_frac_abs_le (s : ℝ) : |s - (cTrunc s : ℝ)| ≤ 1 := by
  unfold cTrunc
  by_cases h : 0 ≤ s
  · rw [if_pos h, abs_le]
    constructor
    · linarith [Int.floor_le s]
    · linarith [Int.lt_floor_add_one s]
  · rw [if_neg h, abs_le]
    constructor
    · linarith [Int.ceil_lt_add_one s]
    · linarith [Int.le_ceil s]

/-- A chord of a 1-Lipschitz function between consecutive grid points,
evaluated with a weight of absolute value at most one, stays within
`2 · (2π/LUT_SIZE) = π/256` of the function at the corresponding angle. -/
theorem lut_chord_bound (f : ℝ → ℝ)
    (hlip : ∀ x y : ℝ, |f x - f y| ≤ |x - y|)
    (i : ℤ) (frac θ : ℝ) (hfrac1 : |frac| ≤ 1)
    (hθ : θ = ((i : ℝ) + frac) * (2 * π / 1024)) :
    |f (2 * π * (i : ℝ) / 1024)
      + frac * (f (2 * π * ((i : ℝ) + 1) / 1024) - f (2 * π * (i : ℝ) / 1024)) - f θ|
      ≤ π / 256 := by
  have hpi : (0 : ℝ) < π := Real.pi_pos
  have hAθ : 2 * π * (i : ℝ) / 1024 - θ = -(frac * (2 * π / 1024)) := by
    rw [hθ]; ring
  have hBA : 2 * π * ((i : ℝ) + 1) / 1024 - 2 * π * (i : ℝ) / 1024 = 2 * π / 1024 := by
    ring
  have hstep : (0 : ℝ) ≤ 2 * π / 1024 := by positivity
  calc |f (2 * π * (i : ℝ) / 1024)
      + frac * (f (2 * π * ((i : ℝ) + 1) / 1024) - f (2 * π * (i : ℝ) / 1024)) - f θ|
      = |(f (2 * π * (i : ℝ) / 1024) - f θ)
          + frac * (f (2 * π * ((i : ℝ) + 1) / 1024) - f (2 * π * (i : ℝ) / 1024))| := by
        congr 1; ring
    _ ≤ |f (2 * π * (i : ℝ) / 1024) - f θ|
          + |frac| * |f (2 * π * ((i : ℝ) + 1) / 1024) - f (2 * π * (i : ℝ) / 1024)| := by
        refine le_trans (abs_add _ _) ?_
        rw [abs_mul]
    _ ≤ |2 * π * (i : ℝ) / 1024 - θ|
          + 1 * |2 * π * ((i : ℝ) + 1) / 1024 - 2 * π * (i : ℝ) / 1024| := by
        have h1 := hlip (2 * π * (i : ℝ) / 1024) θ
        have h2 := hlip (2 * π * ((i : ℝ) + 1) / 1024) (2 * π * (i : ℝ) / 1024)
        have h3 : |frac| * |f (2 * π * ((i : ℝ) + 1) / 1024) - f (2 * π * (i : ℝ) / 1024)|
            ≤ 1 * |2 * π * ((i : ℝ) + 1) / 1024 - 2 * π * (i : ℝ) / 1024| :=
          mul_le_mul hfrac1 h2 (abs_nonneg _) (by norm_num)
        exact add_le_add h1 h3
    _ ≤ 2 * π / 1024 + 1 * (2 * π / 1024) := by
        rw [hAθ, hBA, abs_neg, abs_mul, abs_of_nonneg hstep]
        have h4 : |frac| * (2 * π / 1024) ≤ 1 * (2 * π / 1024) :=
          mul_le_mul_of_nonneg_right hfrac1 hstep
        linarith
    _ = π / 256 := by ring

/-- Interpolated table lookup is within `π/256` of the underlying
`2π`-periodic 1-Lipschitz function sampled by the table. -/
theorem lut_interp_approx (f : ℝ → ℝ) (tbl : ℤ → ℝ)
    (htbl : ∀ j : ℤ, tbl j = f (2 * π * (j : ℝ) / (LUT_SIZE : ℝ)))
    (hlip : ∀ x y : ℝ, |f x - f y| ≤ |x - y|)
    (hper : ∀ (x : ℝ) (n : ℤ), f (x - (n : ℝ) * (2 * π)) = f x)
    (θ : ℝ) : |lut_interp tbl θ - f θ| ≤ π / 256 := by
  have hpi : (0 : ℝ) < π := Real.pi_pos
  have hL : ((LUT_SIZE : ℕ) : ℝ) = 1024 := by norm_num [LUT_SIZE]
  -- the table entries read are the function at the unreduced grid points
  have hgrid : ∀ k : ℤ, tbl (k % 1024) = f (2 * π * (k : ℝ) / 1024) := by
    intro k
    rw [htbl, hL]
    have hk : ((k % 1024 : ℤ) : ℝ) = (k : ℝ) - ((k / 1024 : ℤ) : ℝ) * 1024 := by
      have h : (k % 1024 : ℤ) = k - 1024 * (k / 1024) := by omega
      rw [h]; push_cast; ring
    rw [hk, show 2 * π * ((k : ℝ) - ((k / 1024 : ℤ) : ℝ) * 1024) / 1024
        = 2 * π * (k : ℝ) / 1024 - ((k / 1024 : ℤ) : ℝ) * (2 * π) by ring, hper]
  have hmask1 : lut_index θ = cTrunc (θ * LUT_SCALE) % 1024 := by
    rw [lut_index, show LUT_MASK = (1023 : ℤ) from rfl, int_land_mask]
  have hmask2 : Int.land (lut_index θ + 1) LUT_MASK = (cTrunc (θ * LUT_SCALE) + 1) % 1024 := by
    rw [hmask1, show LUT_MASK = (1023 : ℤ) from rfl, int_land_mask]
    omega
  -- the interpolated value is the chord of `f` between the grid points
  have hval : lut_interp tbl θ
      = f (2 * π * ((cTrunc (θ * LUT_SCALE) : ℤ) : ℝ) / 1024)
        + lut_frac θ * (f (2 * π * (((cTrunc (θ * LUT_SCALE) : ℤ) : ℝ) + 1) / 1024)
          - f (2 * π * ((cTrunc (θ * LUT_SCALE) : ℤ) : ℝ) / 1024)) := by
    rw [lut_interp, hmask2, hmask1, hgrid, hgrid]
    have h : ((cTrunc (θ * LUT_SCALE) + 1 : ℤ) : ℝ) = ((cTrunc (θ * LUT_SCALE) : ℤ) : ℝ) + 1 := by
      push_cast; ring
    rw [h]
  rw [hval]
  -- the angle in terms of the truncated index and the kept fraction
  have hθ : θ = (((cTrunc (θ * LUT_SCALE) : ℤ) : ℝ) + lut_frac θ) * (2 * π / 1024) := by
    have hscale : LUT_SCALE = 1024 / (2 * π) := by rw [LUT_SCALE, hL]
    rw [lut_frac, hscale]
    have h2π : (2 * π) ≠ 0 := by positivity
    field_simp
    ring
  exact lut_chord_bound f hlip (cTrunc (θ * LUT_SCALE)) (lut_frac θ) θ
    (cTrunc_frac_abs_le (θ * LUT_SCALE)) hθ

theorem fast_sin_approx (θ : ℝ) : |fast_sin θ - Real.sin θ| ≤ π / 256 := by
  refine lut_interp_approx Real.sin sin_lut (fun j => rfl) abs_sin_sub_sin_le ?_ θ
  intro x n
  exact Real.sin_sub_int_mul_two_pi x n

theorem fast_cos_approx (θ : ℝ) : |fast_cos θ - Real.cos θ| ≤ π / 256 := by
  refine lut_interp_approx Real.cos cos_lut (fun j => rfl) abs_cos_sub_cos_le ?_ θ
  intro x n
  rw [show x - (n : ℝ) * (2 * π) = x + ((-n : ℤ) : ℝ) * (2 * π) by push_cast; ring]
  exact Real.cos_add_int_mul_two_pi x (-n)

/-- C3: `fast_sin` and `fast_cos` map any real angle, positive or negative and
of any magnitude, to a table index by scaling by `L/(2π)`, truncating to an
integer, and masking with `L-1`; the mask is reduction of the index modulo `L`
(folding out-of-range and negative angles into range).  The results satisfy
`sin² + cos² ≈ 1` within an explicit bound derived from the table
interpolation error (each lookup is within `π/256` of the exact function),
and are periodic with period `2π` within twice that bound. -/
theorem fast_trig_lut_properties (θ : ℝ) :
    lut_index θ = cTrunc (θ * LUT_SCALE) % 1024 ∧
    |fast_sin θ ^ 2 + fast_cos θ ^ 2 - 1| ≤ 3 * π / 128 ∧
    |fast_sin (θ + 2 * π) - fast_sin θ| ≤ π / 128 ∧
    |fast_cos (θ + 2 * π) - fast_cos θ| ≤ π / 128 := by
  have hpi : (0 : ℝ) < π := Real.pi_pos
  have hpi4 : π ≤ 4 := Real.pi_le_four
  refine ⟨?_, ?_, ?_, ?_⟩
  · rw [lut_index, show LUT_MASK = (1023 : ℤ) from rfl, int_land_mask]
  · have hs := fast_sin_approx θ
    have hc := fast_cos_approx θ
    have hsin1 : |Real.sin θ| ≤ 1 := Real.abs_sin_le_one θ
    have hcos1 : |Real.cos θ| ≤ 1 := Real.abs_cos_le_one θ
    have heps : π / 256 ≤ 1 := by linarith
    have hsb : |fast_sin θ| ≤ 2 := by
      calc |fast_sin θ| = |(fast_sin θ - Real.sin θ) + Real.sin θ| := by congr 1; ring
        _ ≤ |fast_sin θ - Real.sin θ| + |Real.sin θ| := abs_add _ _
        _ ≤ 2 := by linarith
    have hcb : |fast_cos θ| ≤ 2 := by
      calc |fast_cos θ| = |(fast_cos θ - Real.cos θ) + Real.cos θ| := by congr 1; ring
        _ ≤ |fast_cos θ - Real.cos θ| + |Real.cos θ| := abs_add _ _
        _ ≤ 2 := by linarith
    have hkey : fast_sin θ ^ 2 + fast_cos θ ^ 2 - 1
        = (fast_sin θ - Real.sin θ) * (fast_sin θ + Real.sin θ)
          + (fast_cos θ - Real.cos θ) * (fast_cos θ + Real.cos θ) := by
      linear_combination Real.sin_sq_add_cos_sq θ
    rw [hkey]
    calc |(fast_sin θ - Real.sin θ) * (fast_sin θ + Real.sin θ)
          + (fast_cos θ - Real.cos θ) * (fast_cos θ + Real.cos θ)|
        ≤ |fast_sin θ - Real.sin θ| * |fast_sin θ + Real.sin θ|
          + |fast_cos θ - Real.cos θ| * |fast_cos θ + Real.cos θ| := by
          refine le_trans (abs_add _ _) ?_
          rw [abs_mul, abs_mul]
      _ ≤ (π / 256) * 3 + (π / 256) * 3 := by
          have h1 : |fast_sin θ + Real.sin θ| ≤ 3 :=
            le_trans (abs_add _ _) (by linarith)
          have h2 : |fast_cos θ + Real.cos θ| ≤ 3 :=
            le_trans (abs_add _ _) (by linarith)
          have h3 : |fast_sin θ - Real.sin θ| * |fast_sin θ + Real.sin θ| ≤ (π / 256) * 3 :=
            mul_le_mul hs h1 (abs_nonneg _) (by positivity)
          have h4 : |fast_cos θ - Real.cos θ| * |fast_cos θ + Real.cos θ| ≤ (π / 256) * 3 :=
            mul_le_mul hc h2 (abs_nonneg _) (by positivity)
          linarith
      _ = 3 * π / 128 := by ring
  · have h1 := fast_sin_approx (θ + 2 * π)
    rw [Real.sin_add_two_pi] at h1
    have h2 := fast_sin_approx θ
    calc |fast_sin (θ + 2 * π) - fast_sin θ|
        = |(fast_sin (θ + 2 * π) - Real.sin θ) - (fast_sin θ - Real.sin θ)| := by
          congr 1; ring
      _ ≤ |fast_sin (θ + 2 * π) - Real.sin θ| + |fast_sin θ - Real.sin θ| := abs_sub _ _
      _ ≤ π / 128 := by linarith
  · have h1 := fast_cos_approx (θ + 2 * π)
    rw [Real.cos_add_two_pi] at h1
    have h2 := fast_cos_approx θ
    calc |fast_cos (θ + 2 * π) - fast_cos θ|
        = |(fast_cos (θ + 2 * π) - Real.cos θ) - (fast_cos θ - Real.cos θ)| := by
          congr 1; ring
      _ ≤ |fast_cos (θ + 2 * π) - Real.cos θ| + |fast_cos θ - Real.cos θ| := abs_sub _ _
      _ ≤ π / 128 := by linarith

/-! ## DTFTEngine (src/lib/dtft.c)

The inner accumulation loop appears three times in dtft.c, textually
identical: in `compute_dtft_magnitude` (lines 86-115), in the Core0 half of
`calculate_dtft_complex` (lines 165-195) and in the Core1 worker
`core1_dtft_worker` (lines 30-60).  It is embedded once as `dtftLoop`. -/

/-- One iteration of the manually 4x-unrolled main loop (dtft.c lines
168-188): group `g` covers samples `4g .. 4g+3`; the state is
`(real_part, imag_part, angle)`. -/
noncomputable def dtft_group (x : ℕ → ℕ) (negω : ℝ) (st : ℝ × ℝ × ℝ) (g : ℕ) : ℝ × ℝ × ℝ :=
  (st.1 + ((x (4 * g) : ℝ) * fast_cos st.2.2 + (x (4 * g + 1) : ℝ) * fast_cos (st.2.2 + negω)
      + (x (4 * g + 2) : ℝ) * fast_cos (st.2.2 + 2 * negω)
      + (x (4 * g + 3) : ℝ) * fast_cos (st.2.2 + 3 * negω)),
   st.2.1 + ((x (4 * g) : ℝ) * fast_sin st.2.2 + (x (4 * g + 1) : ℝ) * fast_sin (st.2.2 + negω)
      + (x (4 * g + 2) : ℝ) * fast_sin (st.2.2 + 2 * negω)
      + (x (4 * g + 3) : ℝ) * fast_sin (st.2.2 + 3 * negω)),
   st.2.2 + 4 * negω)

/-- One iteration of the remainder loop (dtft.c lines 191-195). -/
noncomputable def dtft_tail_step (x : ℕ → ℕ) (negω : ℝ) (st : ℝ × ℝ × ℝ) (n : ℕ) : ℝ × ℝ × ℝ :=
  (st.1 + (x n : ℝ) * fast_cos st.2.2, st.2.1 + (x n : ℝ) * fast_sin st.2.2, st.2.2 + negω)

/-- The shared inner loop of dtft.c: `neg_omega = -omega`, `N_unroll = N & ~3`
(for `N ≥ 0` this is `N - N % 4`), the unrolled groups, then the remainder
samples; returns `(real_part, imag_part)`. -/
noncomputable def dtftLoop (x : ℕ → ℕ) (N : ℕ) (ω : ℝ) : ℝ × ℝ :=
  let negω : ℝ := -ω
  let N_unroll : ℕ := N - N % 4
  let st1 := (List.range (N_unroll / 4)).foldl (dtft_group x negω) (0, 0, 0)
  let st2 := (List.range' N_unroll (N - N_unroll)).foldl (dtft_tail_step x negω) st1
  (st2.1, st2.2.1)

/-- compute_dtft_magnitude from dtft.c lines 79-118. -/
noncomputable def compute_dtft_magnitude (x : ℕ → ℕ) (N : ℕ) (ω : ℝ) : ℝ :=
  Real.sqrt ((dtftLoop x N ω).1 * (dtftLoop x N ω).1 + (dtftLoop x N ω).2 * (dtftLoop x N ω).2)

/-- calculate_dtft from dtft.c lines 120-133; `alloc` models whether the
`malloc` of the output buffer succeeds (line 121); `omega_scale = 2π/num_points`
and `omega = omega_scale * k` (lines 126-128). -/
noncomputable def calculate_dtft (alloc : Bool) (x : ℕ → ℕ) (N num_points : ℕ) :
    Option (List ℝ) :=
  match alloc with
  | false => none
  | true => some ((List.range num_points).map
      (fun (k : ℕ) => compute_dtft_magnitude x N (2 * π / (num_points : ℝ) * (k : ℝ))))

/-- Bin `k` as computed by the Core1 worker `core1_dtft_worker`
(dtft.c lines 20-64): the same inner loop at `omega = (2π/num_points)·k`. -/
noncomputable def core1_dtft_worker_bin (x : ℕ → ℕ) (N num_points k : ℕ) : ℝ × ℝ :=
  dtftLoop x N (2 * π / (num_points : ℝ) * (k : ℝ))

/-- Bin `k` as computed by the Core0 half of `calculate_dtft_complex`
(dtft.c lines 155-199): the same inner loop at `omega = (2π/num_points)·k`. -/
noncomputable def core0_bin (x : ℕ → ℕ) (N num_points k : ℕ) : ℝ × ℝ :=
  dtftLoop x N (2 * π / (num_points : ℝ) * (k : ℝ))

/-- calculate_dtft_complex from dtft.c lines 135-209; `alloc` models the
`malloc` at line 136.  The bins are split at `split_point = num_points / 2`
(line 142): Core0 computes `[0, split_point)`, the Core1 worker computes
`[split_point, num_points)`; the merged buffer holds `(re, im)` per bin. -/
noncomputable def calculate_dtft_complex (alloc : Bool) (x : ℕ → ℕ) (N num_points : ℕ) :
    Option (List (ℝ × ℝ)) :=
  match alloc with
  | false => none
  | true => some ((List.range num_points).map
      (fun k => if k < num_points / 2 then core0_bin x N num_points k
                else core1_dtft_worker_bin x N num_points k))

theorem getD_range_map {α : Type} (K k : ℕ) (f : ℕ → α) (d : α) (hk : k < K) :
    (((List.range K).map f).getD k d) = f k := by
  rw [List.getD_eq_getElem?_getD]
  rw [List.getElem?_map]
  rw [List.getElem?_range hk]
  rfl

/-- C1: `calculate_dtft_complex` splits the `K` bins at the midpoint `K/2`:
bins below `K/2` are those of the Core0 loop and bins from `K/2` up are those
of the Core1 worker, both running the same inner algorithm; and for every bin
`k < K` the magnitude `sqrt(re² + im²)` of the merged bin equals (exactly, in
the real-arithmetic model, hence within any nonnegative epsilon) the magnitude
the serial `calculate_dtft` returns for the same bin at `ω = 2πk/K`. -/
theorem calculate_dtft_complex_refines_serial (x : ℕ → ℕ) (N K k : ℕ) (hk : k < K) :
    ((calculate_dtft_complex true x N K).getD []).getD k (0, 0)
      = (if k < K / 2 then core0_bin x N K k else core1_dtft_worker_bin x N K k) ∧
    Real.sqrt ((((calculate_dtft_complex true x N K).getD []).getD k (0, 0)).1
        * (((calculate_dtft_complex true x N K).getD []).getD k (0, 0)).1
      + (((calculate_dtft_complex true x N K).getD []).getD k (0, 0)).2
        * (((calculate_dtft_complex true x N K).getD []).getD k (0, 0)).2)
      = ((calculate_dtft true x N K).getD []).getD k 0 := by
  have hbin : ((calculate_dtft_complex true x N K).getD []).getD k (0, 0)
      = (if k < K / 2 then core0_bin x N K k else core1_dtft_worker_bin x N K k) := by
    have he : calculate_dtft_complex true x N K
        = some ((List.range K).map
          (fun k' => if k' < K / 2 then core0_bin x N K k'
                     else core1_dtft_worker_bin x N K k')) := rfl
    rw [he, Option.getD_some, getD_range_map K k _ _ hk]
  refine ⟨hbin, ?_⟩
  have hser : ((calculate_dtft true x N K).getD []).getD k 0
      = compute_dtft_magnitude x N (2 * π / (K : ℝ) * (k : ℝ)) := by
    have he : calculate_dtft true x N K
        = some ((List.range K).map
          (fun (k' : ℕ) => compute_dtft_magnitude x N (2 * π / (K : ℝ) * (k' : ℝ)))) := rfl
    rw [he, Option.getD_some, getD_range_map K k _ _ hk]
  rw [hbin, hser]
  by_cases h : k < K / 2
  · rw [if_pos h]; rfl
  · rw [if_neg h]; rfl

theorem calculate_dtft_complex_refines_serial_witness :
    ((calculate_dtft_complex true (fun _ => 1) 3 2).getD []).getD 1 (0, 0)
      = (if 1 < 2 / 2 then core0_bin (fun _ => 1) 3 2 1
         else core1_dtft_worker_bin (fun _ => 1) 3 2 1) ∧
    Real.sqrt ((((calculate_dtft_complex true (fun _ => 1) 3 2).getD []).getD 1 (0, 0)).1
        * (((calculate_dtft_complex true (fun _ => 1) 3 2).getD []).getD 1 (0, 0)).1
      + (((calculate_dtft_complex true (fun _ => 1) 3 2).getD []).getD 1 (0, 0)).2
        * (((calculate_dtft_complex true (fun _ => 1) 3 2).getD []).getD 1 (0, 0)).2)
      = ((calculate_dtft true (fun _ => 1) 3 2).getD []).getD 1 0 :=
  calculate_dtft_complex_refines_serial (fun _ => 1) 3 2 1 (by decide)

theorem dtftLoop_len_zero (x : ℕ → ℕ) (ω : ℝ) : dtftLoop x 0 ω = (0, 0) := rfl

theorem compute_dtft_magnitude_len_zero (x : ℕ → ℕ) (ω : ℝ) :
    compute_dtft_magnitude x 0 ω = 0 := by
  rw [compute_dtft_magnitude, dtftLoop_len_zero]
  have h : ((0, 0) : ℝ × ℝ).1 * ((0, 0) : ℝ × ℝ).1
      + ((0, 0) : ℝ × ℝ).2 * ((0, 0) : ℝ × ℝ).2 = 0 := by norm_num
  rw [h, Real.sqrt_zero]

/-- C8: `calculate_dtft` and `calculate_dtft_complex` signal failure (NULL,
modelled as `none`) exactly when the output allocation fails; with a
successful allocation every `N ≥ 0` and every `num_points ≥ 0` is accepted:
the spectrum has exactly `num_points` entries, `num_points = 0` yields the
empty spectrum, and `N = 0` yields a spectrum every bin of which is the empty
sum (magnitude `0` serially, `(0, 0)` in the complex variant). -/
theorem calculate_dtft_failure_semantics (x : ℕ → ℕ) (N K : ℕ) :
    calculate_dtft false x N K = none ∧
    calculate_dtft_complex false x N K = none ∧
    calculate_dtft true x N K ≠ none ∧
    calculate_dtft_complex true x N K ≠ none ∧
    ((calculate_dtft true x N K).getD []).length = K ∧
    ((calculate_dtft_complex true x N K).getD []).length = K ∧
    (K = 0 → (calculate_dtft true x N K).getD [] = []
      ∧ (calculate_dtft_complex true x N K).getD [] = []) ∧
    (N = 0 → (calculate_dtft true x N K).getD [] = List.replicate K (0 : ℝ)
      ∧ (calculate_dtft_complex true x N K).getD [] = List.replicate K ((0 : ℝ), (0 : ℝ))) := by
  have hser : calculate_dtft true x N K
      = some ((List.range K).map
        (fun (k' : ℕ) => compute_dtft_magnitude x N (2 * π / (K : ℝ) * (k' : ℝ)))) := rfl
  have hcpx : calculate_dtft_complex true x N K
      = some ((List.range K).map
        (fun k' => if k' < K / 2 then core0_bin x N K k'
                   else core1_dtft_worker_bin x N K k')) := rfl
  refine ⟨rfl, rfl, by rw [hser]; exact Option.some_ne_none _,
    by rw [hcpx]; exact Option.some_ne_none _, ?_, ?_, ?_, ?_⟩
  · rw [hser, Option.getD_some, List.length_map, List.length_range]
  · rw [hcpx, Option.getD_some, List.length_map, List.length_range]
  · intro hK
    subst hK
    exact ⟨rfl, rfl⟩
  · intro hN
    subst hN
    constructor
    · rw [hser, Option.getD_some, List.eq_replicate_iff]
      refine ⟨by rw [List.length_map, List.length_range], ?_⟩
      intro b hb
      obtain ⟨k', _, hk'⟩ := List.mem_map.mp hb
      rw [← hk', compute_dtft_magnitude_len_zero]
    · rw [hcpx, Option.getD_some, List.eq_replicate_iff]
      refine ⟨by rw [List.length_map, List.length_range], ?_⟩
      intro b hb
      obtain ⟨k', _, hk'⟩ := List.mem_map.mp hb
      rw [← hk']
      by_cases h : k' < K / 2
      · rw [if_pos h]; exact dtftLoop_len_zero x _
      · rw [if_neg h]; exact dtftLoop_len_zero x _

theorem calculate_dtft_failure_semantics_witness :
    (calculate_dtft true (fun _ => 1) 0 2).getD [] = List.replicate 2 (0 : ℝ) ∧
    (calculate_dtft_complex true (fun _ => 1) 0 2).getD []
      = List.replicate 2 ((0 : ℝ), (0 : ℝ)) :=
  (calculate_dtft_failure_semantics (fun _ => 1) 0 2).2.2.2.2.2.2.2 rfl

/-! ## CoreSyncChannel (src/lib/dtft.c, cross-core handoff)

The fence-based handoff protocol is modelled as a sequentially consistent
interleaving of atomic actions of the two cores (the `__dmb` barriers of the
source are what justify treating each shared access as an atomic, immediately
visible action).  The worker (dtft.c lines 12-71) writes its assigned bins in
order, then sets `done`, then clears `signal`; the producer
(`calculate_dtft_complex`, lines 201-208) may return only once it observes
`done`. -/

/-- Shared state of the handoff: which output bins the worker has written so
far (`none` models a not-yet-written, possibly stale slot), the `done` and
`signal` fields of `core1_dtft_params_t`, the worker position `wpc` (next bin
to write; `endF` = about to set `done`, `endF + 1` = about to clear `signal`),
and whether the producer has returned. -/
structure CoreSync where
  written : ℕ → Option (ℝ × ℝ)
  done : Bool
  signal : Bool
  wpc : ℕ
  returned : Bool

/-- State right after the producer published the job (dtft.c lines 144-152):
`done` cleared, `signal` set, no output bin written yet, worker at the start
of its range. -/
def coreSyncInit (startF : ℕ) : CoreSync :=
  { written := fun _ => none, done := false, signal := true, wpc := startF, returned := false }

/-- Atomic steps of the two cores.  `v k` is the value the worker computes
for bin `k` (dtft.c lines 23-64); `startF`/`endF` is the assigned range. -/
inductive CoreSyncStep (startF endF : ℕ) (v : ℕ → ℝ × ℝ) : CoreSync → CoreSync → Prop
  | worker_write (s : CoreSync) (h : s.wpc < endF) :
      CoreSyncStep startF endF v s
        { s with written := Function.update s.written s.wpc (some (v s.wpc)),
                 wpc := s.wpc + 1 }
  | worker_set_done (s : CoreSync) (h : s.wpc = endF) :
      CoreSyncStep startF endF v s { s with done := true, wpc := s.wpc + 1 }
  | worker_clear_signal (s : CoreSync) (h : s.wpc = endF + 1) :
      CoreSyncStep startF endF v s { s with signal := false, wpc := s.wpc + 1 }
  | producer_return (s : CoreSync) (h : s.done = true) :
      CoreSyncStep startF endF v s { s with returned := true }

theorem coreSync_invariant (startF endF : ℕ) (hse : startF ≤ endF) (v : ℕ → ℝ × ℝ)
    (s : CoreSync)
    (hreach : Relation.ReflTransGen (CoreSyncStep startF endF v) (coreSyncInit startF) s) :
    startF ≤ s.wpc ∧
    (s.done = true → endF < s.wpc) ∧
    (endF < s.wpc → s.done = true) ∧
    (s.signal = false → s.done = true) ∧
    (s.returned = true → s.done = true) ∧
    (∀ k, startF ≤ k → k < s.wpc → k < endF → s.written k = some (v k)) := by
  induction hreach with
  | refl =>
      refine ⟨le_refl _, ?_, ?_, ?_, ?_, ?_⟩
      · intro hd
        simp [coreSyncInit] at hd
      · intro hlt
        dsimp only [coreSyncInit] at hlt
        omega
      · intro hs
        simp [coreSyncInit] at hs
      · intro hr
        simp [coreSyncInit] at hr
      · intro k hk1 hk2 hk3
        dsimp only [coreSyncInit] at hk2
        omega
  | tail hab hbc ih =>
      rename_i bst cst
      obtain ⟨ih1, ih2, ih3, ih4, ih5, ih6⟩ := ih
      cases hbc with
      | worker_write h =>
          refine ⟨by dsimp only; omega, ?_, ?_, ?_, ?_, ?_⟩
          · intro hd
            dsimp only at hd ⊢
            have := ih2 hd
            omega
          · intro hlt
            dsimp only at hlt ⊢
            exact ih3 (by omega)
          · intro hs
            exact ih4 hs
          · intro hr
            exact ih5 hr
          · intro k hk1 hk2 hk3
            dsimp only at hk2 ⊢
            by_cases hkw : k = bst.wpc
            · subst hkw
              rw [Function.update_same]
            · rw [Function.update_noteq hkw]
              exact ih6 k hk1 (by omega) hk3
      | worker_set_done h =>
          refine ⟨by dsimp only; omega, ?_, ?_, ?_, ?_, ?_⟩
          · intro _
            dsimp only
            omega
          · intro _
            rfl
          · intro _
            rfl
          · intro _
            rfl
          · intro k hk1 hk2 hk3
            dsimp only at hk2 ⊢
            exact ih6 k hk1 (by omega) hk3
      | worker_clear_signal h =>
          have hbdone := ih3 (by omega)
          refine ⟨by dsimp only; omega, ?_, ?_, ?_, ?_, ?_⟩
          · intro _
            dsimp only
            omega
          · intro _
            exact hbdone
          · intro _
            exact hbdone
          · intro _
            exact hbdone
          · intro k hk1 hk2 hk3
            dsimp only at hk2 ⊢
            exact ih6 k hk1 (by omega) hk3
      | producer_return h =>
          exact ⟨ih1, fun hd => ih2 hd, fun hl => ih3 hl, fun hs => ih4 hs,
            fun _ => h, fun k hk1 hk2 hk3 => ih6 k hk1 hk2 hk3⟩

/-- C4: in every (sequentially consistent) execution of the handoff with the
range `[K/2, K)` that `calculate_dtft_complex` dispatches, the job-present
signal is cleared only after the completion flag is set, the completion flag
is set only after every bin of the worker range has been written, and when
the producer has returned (which it does only after observing the completion
flag) every bin in `[K/2, K)` holds the value computed by the worker,
`core1_dtft_worker_bin` — never a missing or stale value. -/
theorem core1_handoff_no_partial_results (x : ℕ → ℕ) (N K : ℕ) (s : CoreSync)
    (hreach : Relation.ReflTransGen
      (CoreSyncStep (K / 2) K (core1_dtft_worker_bin x N K)) (coreSyncInit (K / 2)) s) :
    (s.signal = false → s.done = true) ∧
    (s.done = true → ∀ k, K / 2 ≤ k → k < K → s.written k = some (core1_dtft_worker_bin x N K k)) ∧
    (s.returned = true → ∀ k, K / 2 ≤ k → k < K →
      s.written k = some (core1_dtft_worker_bin x N K k)) := by
  obtain ⟨_, h2, _, h4, h5, h6⟩ := coreSync_invariant (K / 2) K (Nat.div_le_self K 2)
    (core1_dtft_worker_bin x N K) s hreach
  refine ⟨h4, ?_, ?_⟩
  · intro hd k hk1 hk2
    exact h6 k hk1 (by have := h2 hd; omega) hk2
  · intro hr k hk1 hk2
    exact h6 k hk1 (by have := h2 (h5 hr); omega) hk2

theorem core1_handoff_no_partial_results_witness :
    ({ written := Function.update (fun _ => none) 1 (some (core1_dtft_worker_bin (fun _ => 1) 0 2 1)),
       done := true, signal := false, wpc := 4, returned := true } : CoreSync).written 1
      = some (core1_dtft_worker_bin (fun _ => 1) 0 2 1) := by
  refine (core1_handoff_no_partial_results (fun _ => 1) 0 2 _ ?_).2.2 rfl 1 (by decide) (by decide)
  refine Relation.ReflTransGen.head
    (CoreSyncStep.worker_write (coreSyncInit 1) (by decide)) ?_
  refine Relation.ReflTransGen.head (CoreSyncStep.worker_set_done _ rfl) ?_
  refine Relation.ReflTransGen.head (CoreSyncStep.worker_clear_signal _ rfl) ?_
  refine Relation.ReflTransGen.head (CoreSyncStep.producer_return _ rfl) ?_
  exact Relation.ReflTransGen.refl

/-! ## SpectralClassifier (src/lib/signal.c)

The classifier uses only ring operations and order comparisons on its float
values, so it is embedded polymorphically over a linear ordered commutative
ring; the dictionary `dtft_lookup_n10` is an external table (signal.c line 5
includes it; its values are supplied offline), modelled as a function
argument `dict`. -/

section Classifier

variable {α : Type} [LinearOrderedCommRing α]

/-- calculate_euclidean_distance from signal.c lines 63-70: the squared
Euclidean distance `Σ_i diff·diff` over `num_points` bins, no square root. -/
def calculate_euclidean_distance (spectrum1 spectrum2 : ℕ → α) (num_points : ℕ) : α :=
  (List.range num_points).foldl
    (fun sum i => sum + (spectrum1 i - spectrum2 i) * (spectrum1 i - spectrum2 i)) 0

/-- Distance of the computed spectrum against dictionary row `value`
(signal.c lines 89-96: the row is copied out and compared over 41 points). -/
def lookup_distance (dict : ℕ → ℕ → α) (mags : ℕ → α) (value : ℕ) : α :=
  calculate_euclidean_distance mags (dict value) 41

/-- One iteration of the classification loop (signal.c lines 88-103).  The
state is `(min_distance, best_match)`; `none` models the initial
`min_distance = INFINITY` (every finite distance compares `<` against it). -/
def classify_step (dict : ℕ → ℕ → α) (mags : ℕ → α) (st : Option α × ℕ) (value : ℕ) :
    Option α × ℕ :=
  match st.1 with
  | none => (some (lookup_distance dict mags value), value)
  | some m =>
      if lookup_distance dict mags value < m then (some (lookup_distance dict mags value), value)
      else st

/-- The classification loop over the first `t` dictionary entries, from the
initial state `min_distance = INFINITY`, `best_match = 0` (signal.c 84-85). -/
def classify_run (dict : ℕ → ℕ → α) (mags : ℕ → α) (t : ℕ) : Option α × ℕ :=
  (List.range t).foldl (classify_step dict mags) (none, 0)

/-- reconstruct_pixel_value from signal.c lines 78-103 (result value only;
the top-5 diagnostic listing of lines 113-147 is embedded separately as
`top5_matches`): a spectrum length other than 41 is a usage error returning
the sentinel 0; otherwise the best match over all 256 entries is returned. -/
def reconstruct_pixel_value (dict : ℕ → ℕ → α) (mags : ℕ → α) (num_frequencies : ℕ) : ℕ :=
  if num_frequencies ≠ 41 then 0
  else (classify_run dict mags 256).2

theorem euclid_eq_sum (s1 s2 : ℕ → α) :
    ∀ n : ℕ, calculate_euclidean_distance s1 s2 n
      = Finset.sum (Finset.range n) (fun i => (s1 i - s2 i) ^ 2) := by
  intro n
  induction n with
  | zero => rfl
  | succ m ih =>
      rw [calculate_euclidean_distance, List.range_succ, List.foldl_append,
        List.foldl_cons, List.foldl_nil]
      rw [calculate_euclidean_distance] at ih
      rw [ih, Finset.sum_range_succ]
      ring

theorem lookup_distance_nonneg (dict : ℕ → ℕ → α) (mags : ℕ → α) (v : ℕ) :
    0 ≤ lookup_distance dict mags v := by
  rw [lookup_distance, euclid_eq_sum]
  exact Finset.sum_nonneg (fun i _ => sq_nonneg _)

theorem classify_run_spec (dict : ℕ → ℕ → α) (mags : ℕ → α) :
    ∀ t : ℕ, 0 < t →
      (classify_run dict mags t).1
          = some (lookup_distance dict mags (classify_run dict mags t).2) ∧
      (classify_run dict mags t).2 < t ∧
      (∀ w, w < t → lookup_distance dict mags (classify_run dict mags t).2
          ≤ lookup_distance dict mags w) ∧
      (∀ w, w < (classify_run dict mags t).2 →
          lookup_distance dict mags (classify_run dict mags t).2
            < lookup_distance dict mags w) := by
  intro t ht
  induction t with
  | zero => omega
  | succ n ih =>
      have hstep : classify_run dict mags (n + 1)
          = classify_step dict mags (classify_run dict mags n) n := by
        rw [classify_run, classify_run, List.range_succ, List.foldl_append,
          List.foldl_cons, List.foldl_nil]
      by_cases hn : n = 0
      · subst hn
        have h1 : classify_run dict mags 1
            = (some (lookup_distance dict mags 0), 0) := rfl
        rw [h1]
        refine ⟨rfl, by norm_num, ?_, ?_⟩
        · intro w hw
          interval_cases w
          exact le_refl _
        · intro w hw
          omega
      · obtain ⟨ih1, ih2, ih3, ih4⟩ := ih (Nat.pos_of_ne_zero hn)
        have hFn : classify_run dict mags n
            = (some (lookup_distance dict mags (classify_run dict mags n).2),
               (classify_run dict mags n).2) := by
          apply Prod.ext
          · exact ih1
          · rfl
        rw [hstep, hFn, classify_step]
        dsimp only
        by_cases hlt : lookup_distance dict mags n
            < lookup_distance dict mags (classify_run dict mags n).2
        · rw [if_pos hlt]
          refine ⟨rfl, by omega, ?_, ?_⟩
          · intro w hw
            dsimp only
            rcases Nat.lt_succ_iff_lt_or_eq.mp hw with hw' | hw'
            · exact le_trans (le_of_lt hlt) (ih3 w hw')
            · subst hw'
              exact le_refl _
          · intro w hw
            dsimp only at hw ⊢
            exact lt_of_lt_of_le hlt (ih3 w (by omega))
        · rw [if_neg hlt]
          refine ⟨rfl, by omega, ?_, ?_⟩
          · intro w hw
            dsimp only
            rcases Nat.lt_succ_iff_lt_or_eq.mp hw with hw' | hw'
            · exact ih3 w hw'
            · subst hw'
              exact not_lt.mp hlt
          · intro w hw
            dsimp only at hw ⊢
            exact ih4 w hw

/-- C2: for every spectrum of 41 values, the classifier iterates the 256
dictionary entries and returns the byte in `[0, 256)` minimizing the squared
Euclidean distance `Σ_{i<41} (spectrum[i] - dict[v][i])²` (no square root),
with ties broken in favour of the lowest byte value (first-seen minimum wins
under the strict `<` comparison, so every byte below the result has strictly
larger distance). -/
theorem reconstruct_classifies_argmin (dict : ℕ → ℕ → α) (mags : ℕ → α) (w : ℕ)
    (hw : w < 256) :
    reconstruct_pixel_value dict mags 41 < 256 ∧
    lookup_distance dict mags w
      = Finset.sum (Finset.range 41) (fun i => (mags i - dict w i) ^ 2) ∧
    lookup_distance dict mags (reconstruct_pixel_value dict mags 41)
      ≤ lookup_distance dict mags w ∧
    (w < reconstruct_pixel_value dict mags 41 →
      lookup_distance dict mags (reconstruct_pixel_value dict mags 41)
        < lookup_distance dict mags w) := by
  have hr : reconstruct_pixel_value dict mags 41 = (classify_run dict mags 256).2 := by
    rw [reconstruct_pixel_value, if_neg (by norm_num)]
  obtain ⟨_, h2, h3, h4⟩ := classify_run_spec dict mags 256 (by norm_num)
  refine ⟨by rw [hr]; exact h2, euclid_eq_sum mags (dict w) 41, ?_, ?_⟩
  · rw [hr]
    exact h3 w hw
  · rw [hr]
    intro hlt
    exact h4 w hlt

theorem reconstruct_classifies_argmin_witness :
    reconstruct_pixel_value (fun _ _ => (0 : ℤ)) (fun _ => (0 : ℤ)) 41 < 256 ∧
    lookup_distance (fun _ _ => (0 : ℤ)) (fun _ => (0 : ℤ)) 7
      = Finset.sum (Finset.range 41) (fun i => ((0 : ℤ) - 0) ^ 2) ∧
    lookup_distance (fun _ _ => (0 : ℤ)) (fun _ => (0 : ℤ))
        (reconstruct_pixel_value (fun _ _ => (0 : ℤ)) (fun _ => (0 : ℤ)) 41)
      ≤ lookup_distance (fun _ _ => (0 : ℤ)) (fun _ => (0 : ℤ)) 7 ∧
    (7 < reconstruct_pixel_value (fun _ _ => (0 : ℤ)) (fun _ => (0 : ℤ)) 41 →
      lookup_distance (fun _ _ => (0 : ℤ)) (fun _ => (0 : ℤ))
          (reconstruct_pixel_value (fun _ _ => (0 : ℤ)) (fun _ => (0 : ℤ)) 41)
        < lookup_distance (fun _ _ => (0 : ℤ)) (fun _ => (0 : ℤ)) 7) :=
  reconstruct_classifies_argmin (fun _ _ => (0 : ℤ)) (fun _ => (0 : ℤ)) 7 (by decide)

/-- C7: a spectrum whose length differs from 41 is rejected up front: the
classifier returns the sentinel 0 without depending on the spectrum contents
at all (so nothing is read out of bounds in the model), while a spectrum of
length exactly 41 proceeds to the normal classification loop. -/
theorem reconstruct_length_guard (dict : ℕ → ℕ → α) (mags mags' : ℕ → α) (n : ℕ)
    (hn : n ≠ 41) :
    reconstruct_pixel_value dict mags n = 0 ∧
    reconstruct_pixel_value dict mags n = reconstruct_pixel_value dict mags' n ∧
    reconstruct_pixel_value dict mags 41 = (classify_run dict mags 256).2 := by
  refine ⟨?_, ?_, ?_⟩
  · rw [reconstruct_pixel_value, if_pos hn]
  · rw [reconstruct_pixel_value, if_pos hn, reconstruct_pixel_value, if_pos hn]
  · rw [reconstruct_pixel_value, if_neg (by norm_num)]

theorem reconstruct_length_guard_witness :
    reconstruct_pixel_value (fun _ _ => (0 : ℤ)) (fun _ => (5 : ℤ)) 40 = 0 ∧
    reconstruct_pixel_value (fun _ _ => (0 : ℤ)) (fun _ => (5 : ℤ)) 40
      = reconstruct_pixel_value (fun _ _ => (0 : ℤ)) (fun _ => (7 : ℤ)) 40 ∧
    reconstruct_pixel_value (fun _ _ => (0 : ℤ)) (fun _ => (5 : ℤ)) 41
      = (classify_run (fun _ _ => (0 : ℤ)) (fun _ => (5 : ℤ)) 256).2 :=
  reconstruct_length_guard (fun _ _ => (0 : ℤ)) (fun _ => (5 : ℤ)) (fun _ => (7 : ℤ)) 40
    (by decide)

/-- C10: the error sentinel collides with a valid result: the length-mismatch
branch returns the byte 0, and classifying row 0 of the dictionary itself (a
legitimate best match at distance 0) also returns the byte 0, so a caller
cannot distinguish the two outcomes from the return value alone. -/
theorem reconstruct_sentinel_collision (dict : ℕ → ℕ → α) (mags : ℕ → α) :
    reconstruct_pixel_value dict mags 39 = 0 ∧
    reconstruct_pixel_value dict (fun i => dict 0 i) 41 = 0 := by
  constructor
  · rw [reconstruct_pixel_value, if_pos (by norm_num)]
  · have hr : reconstruct_pixel_value dict (fun i => dict 0 i) 41
        = (classify_run dict (fun i => dict 0 i) 256).2 := by
      rw [reconstruct_pixel_value, if_neg (by norm_num)]
    obtain ⟨_, _, _, h4⟩ := classify_run_spec dict (fun i => dict 0 i) 256 (by norm_num)
    rw [hr]
    by_contra hne
    have hpos : 0 < (classify_run dict (fun i => dict 0 i) 256).2 :=
      Nat.pos_of_ne_zero hne
    have hlt := h4 0 hpos
    have hzero : lookup_distance dict (fun i => dict 0 i) 0 = 0 := by
      rw [lookup_distance, euclid_eq_sum]
      apply Finset.sum_eq_zero
      intro i _
      ring
    rw [hzero] at hlt
    exact absurd hlt (not_lt.mpr (lookup_distance_nonneg dict (fun i => dict 0 i) _))

end Classifier

/-! ## Top-5 ranking (signal.c lines 113-147)

The diagnostic shortlist: a 256-entry `Match` array is filled with
`(value, distance)` pairs, the first five positions are selection-sorted by
repeated compare-and-swap, and the first five entries are reported. -/

section Ranking

variable {α : Type} [LinearOrderedCommRing α]

/-- The `matches` array as filled in signal.c lines 121-128: entry `v` is
`(v, distance of the spectrum to dictionary row v)`. -/
def matches_init (dict : ℕ → ℕ → α) (mags : ℕ → α) : List (ℕ × α) :=
  (List.range 256).map (fun v => (v, lookup_distance dict mags v))

/-- One compare-and-swap of the partial bubble sort (signal.c lines 133-137):
if entry `j` has strictly smaller distance than entry `i`, swap them. -/
def bubble_step (l : List (ℕ × α)) (i j : ℕ) : List (ℕ × α) :=
  if (l.getD j (0, 0)).2 < (l.getD i (0, 0)).2 then
    (l.set i (l.getD j (0, 0))).set j (l.getD i (0, 0))
  else l

/-- The inner loop for position `i` (signal.c line 132): `j` runs from `i+1`
to `255`. -/
def bubble_pass (l : List (ℕ × α)) (i : ℕ) : List (ℕ × α) :=
  (List.range' (i + 1) (255 - i)).foldl (fun acc j => bubble_step acc i j) l

/-- The five outer passes (signal.c line 131). -/
def top5_sort (l : List (ℕ × α)) : List (ℕ × α) :=
  (List.range 5).foldl bubble_pass l

/-- The reported top-5 shortlist (signal.c lines 141-147): the first five
entries of the partially sorted array. -/
def top5_matches (dict : ℕ → ℕ → α) (mags : ℕ → α) : List (ℕ × α) :=
  (top5_sort (matches_init dict mags)).take 5

end Ranking

/-! ### Swaps are permutations -/

theorem cons_set_perm {β : Type} (dflt : β) :
    ∀ (t : List β) (k : ℕ) (a : β), k < t.length →
      List.Perm ((t.getD k dflt) :: (t.set k a)) (a :: t) := by
  intro t
  induction t with
  | nil =>
      intro k a hk
      simp at hk
  | cons b t' ih =>
      intro k a hk
      cases k with
      | zero =>
          rw [List.getD_cons_zero, List.set_cons_zero]
          exact List.Perm.swap a b t'
      | succ k' =>
          have hk' : k' < t'.length := by simpa using hk
          rw [List.getD_cons_succ, List.set_cons_succ]
          exact List.Perm.trans (List.Perm.swap b (t'.getD k' dflt) (t'.set k' a))
            (List.Perm.trans (List.Perm.cons b (ih k' a hk')) (List.Perm.swap a b t'))

theorem set_swap_perm {β : Type} (dflt : β) :
    ∀ (l : List β) (i j : ℕ), i < j → j < l.length →
      List.Perm ((l.set i (l.getD j dflt)).set j (l.getD i dflt)) l := by
  intro l
  induction l with
  | nil =>
      intro i j hij hj
      simp at hj
  | cons a t ih =>
      intro i j hij hj
      cases i with
      | zero =>
          cases j with
          | zero => omega
          | succ k =>
              have hk : k < t.length := by simpa using hj
              rw [List.getD_cons_zero, List.getD_cons_succ, List.set_cons_zero,
                List.set_cons_succ]
              exact cons_set_perm dflt t k a hk
      | succ i' =>
          cases j with
          | zero => omega
          | succ j' =>
              rw [List.getD_cons_succ, List.getD_cons_succ, List.set_cons_succ,
                List.set_cons_succ]
              exact List.Perm.cons a (ih i' j' (by omega) (by simpa using hj))

theorem set_swap_drop_perm {β : Type} (dflt : β) (acc : List β) (i j a : ℕ)
    (hai : a ≤ i) (hij : i < j) (hj : j < acc.length) :
    List.Perm (((acc.set i (acc.getD j dflt)).set j (acc.getD i dflt)).drop a)
      (acc.drop a) := by
  have hgj : acc.getD j dflt = (acc.drop a).getD (j - a) dflt := by
    rw [List.getD_eq_getElem?_getD, List.getD_eq_getElem?_getD, List.getElem?_drop]
    have h : a + (j - a) = j := by omega
    rw [h]
  have hgi : acc.getD i dflt = (acc.drop a).getD (i - a) dflt := by
    rw [List.getD_eq_getElem?_getD, List.getD_eq_getElem?_getD, List.getElem?_drop]
    have h : a + (i - a) = i := by omega
    rw [h]
  rw [List.drop_set, if_neg (by omega), List.drop_set, if_neg (by omega), hgi, hgj]
  refine set_swap_perm dflt (acc.drop a) (i - a) (j - a) (by omega) ?_
  rw [List.length_drop]
  omega

/-! ### Facts about a single compare-and-swap -/

theorem getD_set_self {β : Type} (l : List β) (i : ℕ) (v dflt : β) (h : i < l.length) :
    (l.set i v).getD i dflt = v := by
  rw [List.getD_eq_getElem?_getD, List.getElem?_set_self h]
  rfl

theorem getD_set_ne {β : Type} (l : List β) (i t : ℕ) (v dflt : β) (h : i ≠ t) :
    (l.set i v).getD t dflt = l.getD t dflt := by
  rw [List.getD_eq_getElem?_getD, List.getD_eq_getElem?_getD, List.getElem?_set_ne h]

section BubbleFacts

variable {α : Type} [LinearOrderedCommRing α]

theorem bubble_step_length (l : List (ℕ × α)) (i j : ℕ) :
    (bubble_step l i j).length = l.length := by
  rw [bubble_step]
  split <;> simp

theorem bubble_step_getElem?_ne (l : List (ℕ × α)) (i j t : ℕ) (hti : t ≠ i) (htj : t ≠ j) :
    (bubble_step l i j)[t]? = l[t]? := by
  rw [bubble_step]
  split
  · rw [List.getElem?_set_ne (by omega), List.getElem?_set_ne (by omega)]
  · rfl

theorem bubble_step_getD_ne (l : List (ℕ × α)) (i j t : ℕ) (hti : t ≠ i) (htj : t ≠ j) :
    (bubble_step l i j).getD t (0, 0) = l.getD t (0, 0) := by
  rw [List.getD_eq_getElem?_getD, List.getD_eq_getElem?_getD,
    bubble_step_getElem?_ne l i j t hti htj]

theorem bubble_step_drop_perm (l : List (ℕ × α)) (i j a : ℕ)
    (hai : a ≤ i) (hij : i < j) (hj : j < l.length) :
    List.Perm ((bubble_step l i j).drop a) (l.drop a) := by
  rw [bubble_step]
  split
  · exact set_swap_drop_perm (0, 0) l i j a hai hij hj
  · exact List.Perm.refl _

theorem bubble_step_min (l : List (ℕ × α)) (i j : ℕ) (hij : i < j) (hj : j < l.length) :
    ((bubble_step l i j).getD i (0, 0)).2 ≤ (l.getD i (0, 0)).2 ∧
    ((bubble_step l i j).getD i (0, 0)).2 ≤ ((bubble_step l i j).getD j (0, 0)).2 ∧
    ((bubble_step l i j).getD i (0, 0)).2 ≤ (l.getD j (0, 0)).2 := by
  have hil : i < l.length := lt_trans hij hj
  rw [bubble_step]
  split
  · rename_i hlt
    have hvi : (((l.set i (l.getD j (0, 0))).set j (l.getD i (0, 0))).getD i (0, 0))
        = l.getD j (0, 0) := by
      rw [getD_set_ne _ _ _ _ _ (by omega), getD_set_self _ _ _ _ hil]
    have hvj : (((l.set i (l.getD j (0, 0))).set j (l.getD i (0, 0))).getD j (0, 0))
        = l.getD i (0, 0) := by
      rw [getD_set_self]
      rw [List.length_set]
      exact hj
    rw [hvi, hvj]
    exact ⟨le_of_lt hlt, le_of_lt hlt, le_refl _⟩
  · rename_i hge
    exact ⟨le_refl _, not_lt.mp hge, not_lt.mp hge⟩

end BubbleFacts

section BubblePass

variable {α : Type} [LinearOrderedCommRing α]

theorem bubble_pass_inner_spec (l : List (ℕ × α)) (i : ℕ) (hlen : l.length = 256)
    (hi : i < 256) :
    ∀ c : ℕ, i + 1 + c ≤ 256 →
      ((List.range' (i + 1) c).foldl (fun a j => bubble_step a i j) l).length = 256 ∧
      (∀ t, t < i →
        ((List.range' (i + 1) c).foldl (fun a j => bubble_step a i j) l)[t]? = l[t]?) ∧
      (∀ a, a ≤ i →
        List.Perm (((List.range' (i + 1) c).foldl (fun a j => bubble_step a i j) l).drop a)
          (l.drop a)) ∧
      (∀ t, i < t → t < i + 1 + c →
        (((List.range' (i + 1) c).foldl (fun a j => bubble_step a i j) l).getD i (0, 0)).2
          ≤ (((List.range' (i + 1) c).foldl (fun a j => bubble_step a i j) l).getD t (0, 0)).2) := by
  intro c
  induction c with
  | zero =>
      intro _
      refine ⟨hlen, fun t _ => rfl, fun a _ => List.Perm.refl _, fun t ht1 ht2 => ?_⟩
      omega
  | succ c' ih =>
      intro hc
      obtain ⟨ih1, ih2, ih3, ih4⟩ := ih (by omega)
      have hconcat : List.range' (i + 1) (c' + 1)
          = List.range' (i + 1) c' ++ [i + 1 + c'] := by
        rw [List.range'_concat]
        norm_num
      rw [hconcat, List.foldl_append, List.foldl_cons, List.foldl_nil]
      set acc := (List.range' (i + 1) c').foldl (fun a j => bubble_step a i j) l with hacc
      have hij : i < i + 1 + c' := by omega
      have hjlen : i + 1 + c' < acc.length := by omega
      obtain ⟨hm1, hm2, hm3⟩ := bubble_step_min acc i (i + 1 + c') hij hjlen
      refine ⟨?_, ?_, ?_, ?_⟩
      · rw [bubble_step_length]
        exact ih1
      · intro t ht
        rw [bubble_step_getElem?_ne acc i _ t (by omega) (by omega)]
        exact ih2 t ht
      · intro a ha
        exact List.Perm.trans (bubble_step_drop_perm acc i _ a ha hij hjlen) (ih3 a ha)
      · intro t ht1 ht2
        by_cases htj : t = i + 1 + c'
        · subst htj
          exact hm2
        · have htval : (bubble_step acc i (i + 1 + c')).getD t (0, 0) = acc.getD t (0, 0) :=
            bubble_step_getD_ne acc i _ t (by omega) htj
          rw [htval]
          exact le_trans hm1 (ih4 t ht1 (by omega))

theorem bubble_pass_spec (l : List (ℕ × α)) (i : ℕ) (hlen : l.length = 256)
    (hi : i < 256) :
    (bubble_pass l i).length = 256 ∧
    (∀ t, t < i → (bubble_pass l i)[t]? = l[t]?) ∧
    (∀ a, a ≤ i → List.Perm ((bubble_pass l i).drop a) (l.drop a)) ∧
    (∀ t, i < t → t < 256 →
      ((bubble_pass l i).getD i (0, 0)).2 ≤ ((bubble_pass l i).getD t (0, 0)).2) := by
  have h := bubble_pass_inner_spec l i hlen hi (255 - i) (by omega)
  obtain ⟨h1, h2, h3, h4⟩ := h
  rw [bubble_pass]
  exact ⟨h1, h2, h3, fun t ht1 ht2 => h4 t ht1 (by omega)⟩

end BubblePass

section Top5Spec

variable {α : Type} [LinearOrderedCommRing α]

theorem top5_stage_spec (l : List (ℕ × α)) (hlen : l.length = 256) :
    ∀ k : ℕ, k ≤ 5 →
      ((List.range k).foldl bubble_pass l).length = 256 ∧
      List.Perm ((List.range k).foldl bubble_pass l) l ∧
      (∀ a, a < k → ∀ j, a < j → j < 256 →
        (((List.range k).foldl bubble_pass l).getD a (0, 0)).2
          ≤ (((List.range k).foldl bubble_pass l).getD j (0, 0)).2) := by
  intro k
  induction k with
  | zero =>
      intro _
      exact ⟨hlen, List.Perm.refl _, fun a ha => by omega⟩
  | succ k ih =>
      intro hk
      obtain ⟨ih1, ih2, ih3⟩ := ih (by omega)
      rw [List.range_succ, List.foldl_append, List.foldl_cons, List.foldl_nil]
      set m := (List.range k).foldl bubble_pass l with hm
      obtain ⟨hp1, hp2, hp3, hp4⟩ := bubble_pass_spec m k ih1 (by omega)
      refine ⟨hp1, ?_, ?_⟩
      · have h0 := hp3 0 (Nat.zero_le _)
        rw [List.drop_zero, List.drop_zero] at h0
        exact List.Perm.trans h0 ih2
      · intro a ha j haj hj
        by_cases hak : a = k
        · subst hak
          exact hp4 j haj hj
        · have halt : a < k := by omega
          have haval : (bubble_pass m k).getD a (0, 0) = m.getD a (0, 0) := by
            rw [List.getD_eq_getElem?_getD, List.getD_eq_getElem?_getD, hp2 a halt]
          have hjlt : j < (bubble_pass m k).length := by omega
          have hsome : (bubble_pass m k)[j]? = some ((bubble_pass m k).getD j (0, 0)) := by
            rw [List.getD_eq_getElem?_getD, List.getElem?_eq_getElem hjlt]
            rfl
          have hdropsome : ((bubble_pass m k).drop (a + 1))[j - (a + 1)]?
              = some ((bubble_pass m k).getD j (0, 0)) := by
            rw [List.getElem?_drop]
            have harith : a + 1 + (j - (a + 1)) = j := by omega
            rw [harith]
            exact hsome
          have hmem : (bubble_pass m k).getD j (0, 0) ∈ (bubble_pass m k).drop (a + 1) :=
            List.getElem?_mem hdropsome
          have hmem' : (bubble_pass m k).getD j (0, 0) ∈ m.drop (a + 1) :=
            (List.Perm.mem_iff (hp3 (a + 1) (by omega))).mp hmem
          obtain ⟨n, hn⟩ := List.getElem?_of_mem hmem'
          rw [List.getElem?_drop] at hn
          obtain ⟨hnlt, hnval⟩ := List.getElem?_eq_some_iff.mp hn
          have hmval : m.getD (a + 1 + n) (0, 0) = (bubble_pass m k).getD j (0, 0) := by
            rw [List.getD_eq_getElem?_getD, hn]
            rfl
          have hle := ih3 a halt (a + 1 + n) (by omega) (by omega)
          rw [hmval] at hle
          rw [haval]
          exact hle

/-- C9 (amended): for every input spectrum, the top-5 shortlist has exactly 5
entries; the sorted array is a permutation of the initial `matches` array,
whose entry `v` is `(v, distance to dictionary row v)`; the five reported
distances are non-decreasing; and every entry left beyond position 4 has
distance at least that of each reported entry — i.e. the shortlist is the 5
smallest distances in non-decreasing order.  (The tie-break-by-ascending-byte
clause of the original claim is refuted separately: the swap-on-strictly-
smaller selection pass is not stable.) -/
theorem top5_matches_ranking (dict : ℕ → ℕ → α) (mags : ℕ → α) :
    (top5_matches dict mags).length = 5 ∧
    List.Perm (top5_sort (matches_init dict mags)) (matches_init dict mags) ∧
    (∀ v, v < 256 →
      (matches_init dict mags).getD v (0, 0) = (v, lookup_distance dict mags v)) ∧
    (∀ a b, a ≤ b → b < 5 →
      ((top5_matches dict mags).getD a (0, 0)).2
        ≤ ((top5_matches dict mags).getD b (0, 0)).2) ∧
    (∀ a j, a < 5 → 5 ≤ j → j < 256 →
      ((top5_matches dict mags).getD a (0, 0)).2
        ≤ ((top5_sort (matches_init dict mags)).getD j (0, 0)).2) := by
  have hlen : (matches_init dict mags).length = 256 := by
    rw [matches_init, List.length_map, List.length_range]
  obtain ⟨h1, h2, h3⟩ := top5_stage_spec (matches_init dict mags) hlen 5 (le_refl _)
  have hsorteq : top5_sort (matches_init dict mags)
      = (List.range 5).foldl bubble_pass (matches_init dict mags) := rfl
  have htake : ∀ t, t < 5 → (top5_matches dict mags).getD t (0, 0)
      = (top5_sort (matches_init dict mags)).getD t (0, 0) := by
    intro t ht
    rw [top5_matches, List.getD_eq_getElem?_getD, List.getD_eq_getElem?_getD,
      List.getElem?_take_of_lt ht]
  refine ⟨?_, ?_, ?_, ?_, ?_⟩
  · rw [top5_matches, List.length_take, hsorteq, h1]
    omega
  · rw [hsorteq]
    exact h2
  · intro v hv
    rw [matches_init, getD_range_map 256 v _ _ hv]
  · intro a b hab hb
    rcases Nat.lt_or_ge a b with hlt | hge
    · rw [htake a (by omega), htake b hb, hsorteq]
      exact h3 a (by omega) b hlt (by omega)
    · have hab' : a = b := by omega
      subst hab'
      exact le_refl _
  · intro a j ha hj5 hj
    rw [htake a ha, hsorteq]
    exact h3 a (by omega) j (by omega) hj

theorem top5_matches_ranking_witness :
    ((top5_matches (fun _ _ => (0 : ℤ)) (fun _ => (0 : ℤ))).getD 0 (0, 0)).2
      ≤ ((top5_matches (fun _ _ => (0 : ℤ)) (fun _ => (0 : ℤ))).getD 4 (0, 0)).2 :=
  (top5_matches_ranking (fun _ _ => (0 : ℤ)) (fun _ => (0 : ℤ))).2.2.2.1 0 4
    (by decide) (by decide)

end Top5Spec

/-! ### The tie-break clause is refuted: the partial selection sort is unstable -/

theorem bubble_no_swap_run {α : Type} [LinearOrderedCommRing α]
    (l : List (ℕ × α)) (i : ℕ) :
    ∀ (c s : ℕ), (∀ j, s ≤ j → j < s + c → ¬ ((l.getD j (0, 0)).2 < (l.getD i (0, 0)).2)) →
      (List.range' s c).foldl (fun acc j => bubble_step acc i j) l = l := by
  intro c
  induction c with
  | zero =>
      intro s _
      rfl
  | succ c' ih =>
      intro s h
      rw [List.range'_succ, List.foldl_cons]
      have hstep : bubble_step l i s = l := by
        rw [bubble_step, if_neg (h s (le_refl _) (by omega))]
      rw [hstep]
      exact ih (s + 1) (fun j hj1 hj2 => h j (by omega) (by omega))

/-- A concrete dictionary over `ℤ` exhibiting a distance tie: rows 0 and 1 are
both at squared distance 5 from the all-zero spectrum, row 2 is at distance 3,
and all remaining rows are at distance 100. -/
def c9dict : ℕ → ℕ → ℤ :=
  fun v i =>
    if v = 0 then (if i = 0 then 2 else if i = 1 then 1 else 0)
    else if v = 1 then (if i = 0 then 1 else if i = 1 then 2 else 0)
    else if v = 2 then (if i = 0 then 1 else if i = 1 then 1 else if i = 2 then 1 else 0)
    else (if i = 0 then 10 else 0)

/-- The all-zero input spectrum used for the tie-break counterexample. -/
def c9mags : ℕ → ℤ := fun _ => 0

/-- The array after the single swap the sort performs on this input: entries
0 and 2 of the initial `matches` array exchanged. -/
def c9m1 : List (ℕ × ℤ) :=
  ((matches_init c9dict c9mags).set 0 ((matches_init c9dict c9mags).getD 2 (0, 0))).set 2
    ((matches_init c9dict c9mags).getD 0 (0, 0))

theorem c9_d0 : lookup_distance c9dict c9mags 0 = 5 := by decide

theorem c9_d1 : lookup_distance c9dict c9mags 1 = 5 := by decide

theorem c9_d2 : lookup_distance c9dict c9mags 2 = 3 := by decide

theorem c9_dv (v : ℕ) (hv : 3 ≤ v) : lookup_distance c9dict c9mags v = 100 := by
  have h0 : v ≠ 0 := by omega
  have h1 : v ≠ 1 := by omega
  have h2 : v ≠ 2 := by omega
  rw [lookup_distance, euclid_eq_sum]
  have hcong : ∀ i ∈ Finset.range 41,
      (c9mags i - c9dict v i) ^ 2 = (if i = 0 then (100 : ℤ) else 0) := by
    intro i _
    rw [c9mags, c9dict]
    rw [if_neg h0, if_neg h1, if_neg h2]
    by_cases hi : i = 0
    · rw [if_pos hi, if_pos hi]
      norm_num
    · rw [if_neg hi, if_neg hi]
      norm_num
  rw [Finset.sum_congr rfl hcong]
  decide

theorem c9_m0_len : (matches_init c9dict c9mags).length = 256 := by
  rw [matches_init, List.length_map, List.length_range]

theorem c9_m0_getD (v : ℕ) (hv : v < 256) :
    (matches_init c9dict c9mags).getD v (0, 0) = (v, lookup_distance c9dict c9mags v) := by
  rw [matches_init, getD_range_map 256 v _ _ hv]

theorem c9_m0_d0 : ((matches_init c9dict c9mags).getD 0 (0, 0)).2 = 5 := by
  rw [c9_m0_getD 0 (by norm_num), c9_d0]

theorem c9_m0_d1 : ((matches_init c9dict c9mags).getD 1 (0, 0)).2 = 5 := by
  rw [c9_m0_getD 1 (by norm_num), c9_d1]

theorem c9_m0_d2 : ((matches_init c9dict c9mags).getD 2 (0, 0)).2 = 3 := by
  rw [c9_m0_getD 2 (by norm_num), c9_d2]

theorem c9_m0_dv (j : ℕ) (h3 : 3 ≤ j) (hj : j < 256) :
    ((matches_init c9dict c9mags).getD j (0, 0)).2 = 100 := by
  rw [c9_m0_getD j hj, c9_dv j h3]

theorem c9_m1_getD0 : c9m1.getD 0 (0, 0) = (matches_init c9dict c9mags).getD 2 (0, 0) := by
  rw [c9m1, getD_set_ne _ 2 0 _ _ (by norm_num), getD_set_self]
  rw [c9_m0_len]
  norm_num

theorem c9_m1_getD1 : c9m1.getD 1 (0, 0) = (matches_init c9dict c9mags).getD 1 (0, 0) := by
  rw [c9m1, getD_set_ne _ 2 1 _ _ (by norm_num), getD_set_ne _ 0 1 _ _ (by norm_num)]

theorem c9_m1_getD2 : c9m1.getD 2 (0, 0) = (matches_init c9dict c9mags).getD 0 (0, 0) := by
  rw [c9m1, getD_set_self]
  rw [List.length_set, c9_m0_len]
  norm_num

theorem c9_m1_getDge (j : ℕ) (h3 : 3 ≤ j) :
    c9m1.getD j (0, 0) = (matches_init c9dict c9mags).getD j (0, 0) := by
  rw [c9m1, getD_set_ne _ 2 j _ _ (by omega), getD_set_ne _ 0 j _ _ (by omega)]

theorem c9_pass0 : bubble_pass (matches_init c9dict c9mags) 0 = c9m1 := by
  rw [bubble_pass]
  simp only [Nat.zero_add, Nat.sub_zero]
  have hr : List.range' 1 255 = 1 :: 2 :: List.range' 3 253 := by
    rw [show (255 : ℕ) = 254 + 1 by norm_num, List.range'_succ]
    rw [show (254 : ℕ) = 253 + 1 by norm_num, List.range'_succ]
  rw [hr, List.foldl_cons, List.foldl_cons]
  have hs1 : bubble_step (matches_init c9dict c9mags) 0 1 = matches_init c9dict c9mags := by
    rw [bubble_step, c9_m0_d1, c9_m0_d0, if_neg (by norm_num)]
  have hs2 : bubble_step (matches_init c9dict c9mags) 0 2 = c9m1 := by
    rw [bubble_step, c9_m0_d2, c9_m0_d0, if_pos (by norm_num), c9m1]
  rw [hs1, hs2]
  refine bubble_no_swap_run c9m1 0 253 3 ?_
  intro j hj1 hj2
  rw [c9_m1_getDge j hj1, c9_m1_getD0, c9_m0_dv j hj1 (by omega), c9_m0_d2]
  norm_num

theorem c9_pass_fix (i : ℕ) (h1 : 1 ≤ i) (h4 : i ≤ 4) : bubble_pass c9m1 i = c9m1 := by
  have hvi : (c9m1.getD i (0, 0)).2 ≤ 100 := by
    interval_cases i
    · rw [c9_m1_getD1, c9_m0_d1]
      norm_num
    · rw [c9_m1_getD2, c9_m0_d0]
      norm_num
    · rw [c9_m1_getDge 3 (by norm_num), c9_m0_dv 3 (by norm_num) (by norm_num)]
    · rw [c9_m1_getDge 4 (by norm_num), c9_m0_dv 4 (by norm_num) (by norm_num)]
  rw [bubble_pass]
  refine bubble_no_swap_run c9m1 i (255 - i) (i + 1) ?_
  intro j hj1 hj2
  have hj3 : 3 ≤ j ∨ j = 2 := by omega
  rcases hj3 with hj3 | hj3
  · rw [c9_m1_getDge j hj3, c9_m0_dv j hj3 (by omega)]
    exact not_lt.mpr hvi
  · subst hj3
    rw [c9_m1_getD2, c9_m0_d0]
    have hi2 : i = 1 := by omega
    subst hi2
    rw [c9_m1_getD1, c9_m0_d1]
    norm_num

theorem c9_range5 : List.range 5 = [0, 1, 2, 3, 4] := rfl

theorem c9_top5_sort_eq : top5_sort (matches_init c9dict c9mags) = c9m1 := by
  rw [top5_sort, c9_range5]
  rw [List.foldl_cons, List.foldl_cons, List.foldl_cons, List.foldl_cons, List.foldl_cons,
    List.foldl_nil]
  rw [c9_pass0]
  rw [c9_pass_fix 1 (by norm_num) (by norm_num)]
  rw [c9_pass_fix 2 (by norm_num) (by norm_num)]
  rw [c9_pass_fix 3 (by norm_num) (by norm_num)]
  rw [c9_pass_fix 4 (by norm_num) (by norm_num)]

/-- C9 counterexample: on the all-zero spectrum with the dictionary `c9dict`,
the top-5 shortlist holds entries with equal distance 5 at positions 1 and 2,
but their byte values appear in descending order (byte 1 before byte 0): the
compare-and-swap pass moved the tied entries out of ascending byte order, so
the claimed tie-break by lowest byte value does not hold. -/
theorem top5_tie_break_counterexample :
    ¬ (∀ a b : ℕ, a < b → b < 5 →
        ((top5_matches c9dict c9mags).getD a (0, 0)).2
            = ((top5_matches c9dict c9mags).getD b (0, 0)).2 →
        ((top5_matches c9dict c9mags).getD a (0, 0)).1
            < ((top5_matches c9dict c9mags).getD b (0, 0)).1) := by
  intro hclaim
  have htake : ∀ t, t < 5 → (top5_matches c9dict c9mags).getD t (0, 0)
      = c9m1.getD t (0, 0) := by
    intro t ht
    rw [top5_matches, List.getD_eq_getElem?_getD, List.getElem?_take_of_lt ht,
      c9_top5_sort_eq, List.getD_eq_getElem?_getD]
  have h1 : (top5_matches c9dict c9mags).getD 1 (0, 0)
      = (1, lookup_distance c9dict c9mags 1) := by
    rw [htake 1 (by norm_num), c9_m1_getD1, c9_m0_getD 1 (by norm_num)]
  have h2 : (top5_matches c9dict c9mags).getD 2 (0, 0)
      = (0, lookup_distance c9dict c9mags 0) := by
    rw [htake 2 (by norm_num), c9_m1_getD2, c9_m0_getD 0 (by norm_num)]
  have hcon := hclaim 1 2 (by norm_num) (by norm_num)
  rw [h1, h2, c9_d0, c9_d1] at hcon
  have := hcon rfl
  norm_num at this

/-! ## PatternPipeline (src/lib/signal.c lines 153-165 and 281-337) -/

/-- repeat_pattern from signal.c lines 153-165: `pattern[0]` is a length
header, the following `pattern_len` entries are the samples, and the buffer
holds `buffer[rep*len + i] = pattern[i+1]` for `rep < repetitions`
(the source performs no allocation check here). -/
def repeat_pattern (pattern : ℕ → ℕ) (repetitions : ℕ) : List ℕ :=
  (List.replicate repetitions ((List.range (pattern 0)).map (fun i => pattern (i + 1)))).flatten

theorem repeat_pattern_length (p : ℕ → ℕ) :
    ∀ r : ℕ, (repeat_pattern p r).length = r * (p 0) := by
  intro r
  induction r with
  | zero => simp [repeat_pattern]
  | succ r ih =>
      rw [repeat_pattern, List.replicate_succ, List.flatten_cons, List.length_append,
        List.length_map, List.length_range]
      rw [repeat_pattern] at ih
      rw [ih]
      ring

theorem repeat_pattern_getD (p : ℕ → ℕ) :
    ∀ (r t : ℕ), t < r * (p 0) → (repeat_pattern p r).getD t 0 = p (t % (p 0) + 1) := by
  intro r
  induction r with
  | zero =>
      intro t ht
      omega
  | succ r ih =>
      intro t ht
      rw [repeat_pattern, List.replicate_succ, List.flatten_cons]
      by_cases hlt : t < p 0
      · rw [List.getD_eq_getElem?_getD,
          List.getElem?_append_left (by rw [List.length_map, List.length_range]; exact hlt),
          ← List.getD_eq_getElem?_getD, getD_range_map (p 0) t _ _ hlt,
          Nat.mod_eq_of_lt hlt]
      · have hge : p 0 ≤ t := by omega
        rw [List.getD_eq_getElem?_getD,
          List.getElem?_append_right (by rw [List.length_map, List.length_range]; exact hge),
          List.length_map, List.length_range, ← List.getD_eq_getElem?_getD]
        rw [repeat_pattern] at ih
        have ht' : t - p 0 < r * p 0 := by
          rw [Nat.succ_mul] at ht
          omega
        rw [ih (t - p 0) ht', Nat.mod_eq_sub_mod hge]

/-- The DTFT loop inside process_pattern_return_value (signal.c lines
301-314): 41 bins at `omega = π k / 40`; for each sample the angle
`-omega * n` is computed directly and the exact C-library `cosf`/`sinf` are
applied (NOT the TrigLUT `fast_cos`/`fast_sin`); the state is
`(real_part, imag_part)`. -/
noncomputable def pprv_spectrum (bits : ℕ → ℕ) (k : ℕ) : ℝ × ℝ :=
  (List.range (bits 0 * 10)).foldl
    (fun st n =>
      (st.1 + ((repeat_pattern bits 10).getD n 0 : ℝ) * Real.cos (-(π * (k : ℝ) / 40) * (n : ℝ)),
       st.2 + ((repeat_pattern bits 10).getD n 0 : ℝ) * Real.sin (-(π * (k : ℝ) / 40) * (n : ℝ))))
    (0, 0)

/-- The same loop as `pprv_spectrum` but with the TrigLUT approximations in
place of exact trigonometry — the evaluation the specification claims the
pipeline performs.  Used only to refute that claim. -/
noncomputable def pprv_spectrum_lut (bits : ℕ → ℕ) (k : ℕ) : ℝ × ℝ :=
  (List.range (bits 0 * 10)).foldl
    (fun st n =>
      (st.1 + ((repeat_pattern bits 10).getD n 0 : ℝ) * fast_cos (-(π * (k : ℝ) / 40) * (n : ℝ)),
       st.2 + ((repeat_pattern bits 10).getD n 0 : ℝ) * fast_sin (-(π * (k : ℝ) / 40) * (n : ℝ))))
    (0, 0)

/-- process_pattern_return_value from signal.c lines 281-337: replicate the
received pattern 10 times, evaluate the 41-bin DTFT, square the magnitudes
(`re·re + im·im`, line 324), classify.  `allocComplex`/`allocMags` model the
two `malloc` checks (lines 294-298 and 317-320), both returning the sentinel 0
on failure. -/
noncomputable def process_pattern_return_value (allocComplex allocMags : Bool)
    (dict : ℕ → ℕ → ℝ) (bits : ℕ → ℕ) : ℕ :=
  match allocComplex with
  | false => 0
  | true =>
      match allocMags with
      | false => 0
      | true =>
          reconstruct_pixel_value dict
            (fun k => (pprv_spectrum bits k).1 * (pprv_spectrum bits k).1
              + (pprv_spectrum bits k).2 * (pprv_spectrum bits k).2) 41

theorem foldl_pair_sum (f g : ℕ → ℝ) :
    ∀ n : ℕ, (List.range n).foldl (fun st t => (st.1 + f t, st.2 + g t)) (0, 0)
      = (Finset.sum (Finset.range n) f, Finset.sum (Finset.range n) g) := by
  intro n
  induction n with
  | zero => simp
  | succ m ih =>
      rw [List.range_succ, List.foldl_append, List.foldl_cons, List.foldl_nil, ih,
        Finset.sum_range_succ, Finset.sum_range_succ]

theorem pprv_spectrum_eq_sum (bits : ℕ → ℕ) (k : ℕ) :
    pprv_spectrum bits k
      = (Finset.sum (Finset.range (bits 0 * 10))
          (fun n => ((repeat_pattern bits 10).getD n 0 : ℝ)
            * Real.cos (-(π * (k : ℝ) / 40) * (n : ℝ))),
         Finset.sum (Finset.range (bits 0 * 10))
          (fun n => ((repeat_pattern bits 10).getD n 0 : ℝ)
            * Real.sin (-(π * (k : ℝ) / 40) * (n : ℝ)))) := by
  rw [pprv_spectrum, foldl_pair_sum]

theorem pprv_spectrum_lut_eq_sum (bits : ℕ → ℕ) (k : ℕ) :
    pprv_spectrum_lut bits k
      = (Finset.sum (Finset.range (bits 0 * 10))
          (fun n => ((repeat_pattern bits 10).getD n 0 : ℝ)
            * fast_cos (-(π * (k : ℝ) / 40) * (n : ℝ))),
         Finset.sum (Finset.range (bits 0 * 10))
          (fun n => ((repeat_pattern bits 10).getD n 0 : ℝ)
            * fast_sin (-(π * (k : ℝ) / 40) * (n : ℝ)))) := by
  rw [pprv_spectrum_lut, foldl_pair_sum]

/-- Modelled from the spec: the OFFLINE dictionary generator (the
`dtft_lookup_n10` table included at signal.c line 5 is generated outside this
repository).  Per spec sections 3 and 6, row entry `k` for a bit pattern `p`
of length 8 is produced by the identical pipeline: replicate the 8 bits 10
times (80 samples, sample `n` is `p (n mod 8)`), evaluate the DTFT at
`ω_k = πk/40`, and store the squared magnitude. -/
noncomputable def dictgen_row (p : ℕ → ℕ) (k : ℕ) : ℝ :=
  (Finset.sum (Finset.range 80)
      (fun n => ((p (n % 8) : ℝ)) * Real.cos (-(π * (k : ℝ) / 40) * (n : ℝ)))) ^ 2
  + (Finset.sum (Finset.range 80)
      (fun n => ((p (n % 8) : ℝ)) * Real.sin (-(π * (k : ℝ) / 40) * (n : ℝ)))) ^ 2

/-- C5: for an 8-bit input pattern the runtime classification path repeats
the pattern exactly 10 times into an 80-sample buffer, evaluates the DTFT at
the 41 frequencies `ω_k = πk/40`, derives squared magnitudes `re² + im²`, and
classifies on those; and these are exactly the parameters of the spec-modelled
offline dictionary generator (`dictgen_row`), bin for bin. -/
theorem process_pattern_pipeline_parameters (dict : ℕ → ℕ → ℝ) (bits : ℕ → ℕ)
    (hlen : bits 0 = 8) :
    (repeat_pattern bits 10).length = 80 ∧
    (∀ k : ℕ, (pprv_spectrum bits k).1
        = Finset.sum (Finset.range 80)
            (fun n => ((bits (n % 8 + 1) : ℝ)) * Real.cos (-(π * (k : ℝ) / 40) * (n : ℝ)))
      ∧ (pprv_spectrum bits k).2
        = Finset.sum (Finset.range 80)
            (fun n => ((bits (n % 8 + 1) : ℝ)) * Real.sin (-(π * (k : ℝ) / 40) * (n : ℝ)))) ∧
    (∀ k : ℕ, (pprv_spectrum bits k).1 * (pprv_spectrum bits k).1
        + (pprv_spectrum bits k).2 * (pprv_spectrum bits k).2
        = dictgen_row (fun i => bits (i + 1)) k) ∧
    process_pattern_return_value true true dict bits
      = reconstruct_pixel_value dict
          (fun k => (pprv_spectrum bits k).1 * (pprv_spectrum bits k).1
            + (pprv_spectrum bits k).2 * (pprv_spectrum bits k).2) 41 := by
  have htot : bits 0 * 10 = 80 := by rw [hlen]
  have hbuf : ∀ n, n < 80 → ((repeat_pattern bits 10).getD n 0 : ℝ) = (bits (n % 8 + 1) : ℝ) := by
    intro n hn
    rw [repeat_pattern_getD bits 10 n (by rw [hlen]; omega), hlen]
  have hspec : ∀ k : ℕ, (pprv_spectrum bits k).1
        = Finset.sum (Finset.range 80)
            (fun n => ((bits (n % 8 + 1) : ℝ)) * Real.cos (-(π * (k : ℝ) / 40) * (n : ℝ)))
      ∧ (pprv_spectrum bits k).2
        = Finset.sum (Finset.range 80)
            (fun n => ((bits (n % 8 + 1) : ℝ)) * Real.sin (-(π * (k : ℝ) / 40) * (n : ℝ))) := by
    intro k
    rw [pprv_spectrum_eq_sum, htot]
    dsimp only
    constructor
    · refine Finset.sum_congr rfl (fun n hn => ?_)
      rw [hbuf n (Finset.mem_range.mp hn)]
    · refine Finset.sum_congr rfl (fun n hn => ?_)
      rw [hbuf n (Finset.mem_range.mp hn)]
  refine ⟨by rw [repeat_pattern_length, hlen], hspec, ?_, rfl⟩
  intro k
  obtain ⟨h1, h2⟩ := hspec k
  rw [h1, h2, dictgen_row]
  ring

/-- The concrete 8-bit pattern buffer used to instantiate C5: length header 8,
all bits 1. -/
def c5bits : ℕ → ℕ := fun i => if i = 0 then 8 else 1

theorem process_pattern_pipeline_parameters_witness :
    (repeat_pattern c5bits 10).length = 80 :=
  (process_pattern_pipeline_parameters (fun _ _ => 0) c5bits rfl).1

/-! ### The pipeline uses exact trigonometry, not the TrigLUT -/

/-- C6 (amended): the complex spectrum computed inside
`process_pattern_return_value` equals, bin for bin, the sum over `n` of
`x[n]·e^{-jωn}` evaluated with the exact C library trigonometry
(`cosf`/`sinf` at signal.c lines 308-309) — not with the TrigLUT
approximations `fast_sin`/`fast_cos`. -/
theorem pipeline_spectrum_exact_trig (bits : ℕ → ℕ) (k : ℕ) :
    (pprv_spectrum bits k).1
      = Finset.sum (Finset.range (bits 0 * 10))
          (fun n => ((repeat_pattern bits 10).getD n 0 : ℝ)
            * Real.cos (-(π * (k : ℝ) / 40) * (n : ℝ))) ∧
    (pprv_spectrum bits k).2
      = Finset.sum (Finset.range (bits 0 * 10))
          (fun n => ((repeat_pattern bits 10).getD n 0 : ℝ)
            * Real.sin (-(π * (k : ℝ) / 40) * (n : ℝ))) := by
  rw [pprv_spectrum_eq_sum]
  exact ⟨rfl, rfl⟩

theorem cos_int_period (x : ℝ) (n : ℤ) :
    Real.cos (x - (n : ℝ) * (2 * π)) = Real.cos x := by
  rw [show x - (n : ℝ) * (2 * π) = x + ((-n : ℤ) : ℝ) * (2 * π) by push_cast; ring]
  exact Real.cos_add_int_mul_two_pi x (-n)

/-- The interpolated lookup written as the chord of the sampled function
between the two consecutive unreduced grid points around the angle. -/
theorem lut_interp_eq_chord (f : ℝ → ℝ) (tbl : ℤ → ℝ)
    (htbl : ∀ j : ℤ, tbl j = f (2 * π * (j : ℝ) / (LUT_SIZE : ℝ)))
    (hper : ∀ (x : ℝ) (n : ℤ), f (x - (n : ℝ) * (2 * π)) = f x)
    (θ : ℝ) :
    lut_interp tbl θ
      = f (2 * π * ((cTrunc (θ * LUT_SCALE) : ℤ) : ℝ) / 1024)
        + lut_frac θ * (f (2 * π * (((cTrunc (θ * LUT_SCALE) : ℤ) : ℝ) + 1) / 1024)
          - f (2 * π * ((cTrunc (θ * LUT_SCALE) : ℤ) : ℝ) / 1024)) := by
  have hL : ((LUT_SIZE : ℕ) : ℝ) = 1024 := by norm_num [LUT_SIZE]
  have hgrid : ∀ k : ℤ, tbl (k % 1024) = f (2 * π * (k : ℝ) / 1024) := by
    intro k
    rw [htbl, hL]
    have hk : ((k % 1024 : ℤ) : ℝ) = (k : ℝ) - ((k / 1024 : ℤ) : ℝ) * 1024 := by
      have h : (k % 1024 : ℤ) = k - 1024 * (k / 1024) := by omega
      rw [h]; push_cast; ring
    rw [hk, show 2 * π * ((k : ℝ) - ((k / 1024 : ℤ) : ℝ) * 1024) / 1024
        = 2 * π * (k : ℝ) / 1024 - ((k / 1024 : ℤ) : ℝ) * (2 * π) by ring, hper]
  have hmask1 : lut_index θ = cTrunc (θ * LUT_SCALE) % 1024 := by
    rw [lut_index, show LUT_MASK = (1023 : ℤ) from rfl, int_land_mask]
  have hmask2 : Int.land (lut_index θ + 1) LUT_MASK = (cTrunc (θ * LUT_SCALE) + 1) % 1024 := by
    rw [hmask1, show LUT_MASK = (1023 : ℤ) from rfl, int_land_mask]
    omega
  rw [lut_interp, hmask2, hmask1, hgrid, hgrid]
  have h : ((cTrunc (θ * LUT_SCALE) + 1 : ℤ) : ℝ) = ((cTrunc (θ * LUT_SCALE) : ℤ) : ℝ) + 1 := by
    push_cast; ring
  rw [h]

/-- The angle decomposed through the truncated index and the kept fraction. -/
theorem lut_theta_decomp (θ : ℝ) :
    θ = (((cTrunc (θ * LUT_SCALE) : ℤ) : ℝ) + lut_frac θ) * (2 * π / 1024) := by
  have hL : ((LUT_SIZE : ℕ) : ℝ) = 1024 := by norm_num [LUT_SIZE]
  have hscale : LUT_SCALE = 1024 / (2 * π) := by rw [LUT_SCALE, hL]
  rw [lut_frac, hscale]
  have h2π : (2 * π) ≠ 0 := by positivity
  field_simp
  ring

/-- Strictly left of a grid segment inside the strict-concavity region of
cosine, the extended chord lies strictly above the function. -/
theorem cos_chord_gt (x a b : ℝ) (hxa : x < a) (hab : a < b)
    (hx : -(π / 2) ≤ x) (hb : b ≤ π / 2) :
    Real.cos x < Real.cos a + ((x - a) / (b - a)) * (Real.cos b - Real.cos a) := by
  have hbx : (0 : ℝ) < b - x := by linarith
  have hba : (0 : ℝ) < b - a := by linarith
  have hax : (0 : ℝ) < a - x := by linarith
  have hmemx : x ∈ Set.Icc (-(π / 2)) (π / 2) := ⟨hx, by linarith⟩
  have hmemb : b ∈ Set.Icc (-(π / 2)) (π / 2) := ⟨by linarith, hb⟩
  have hxb : x ≠ b := by linarith
  have hs : (0 : ℝ) < (b - a) / (b - x) := by positivity
  have ht : (0 : ℝ) < (a - x) / (b - x) := by positivity
  have hsum : (b - a) / (b - x) + (a - x) / (b - x) = 1 := by field_simp
  have hkey := strictConcaveOn_cos_Icc.2 hmemx hmemb hxb hs ht hsum
  rw [smul_eq_mul, smul_eq_mul, smul_eq_mul, smul_eq_mul] at hkey
  have hcomb : (b - a) / (b - x) * x + (a - x) / (b - x) * b = a := by
    field_simp
    ring
  rw [hcomb] at hkey
  have hid : Real.cos a - (a - x) / (b - x) * Real.cos b
      = ((b - a) / (b - x)) * (Real.cos a + ((x - a) / (b - a)) * (Real.cos b - Real.cos a)) := by
    field_simp
    ring
  have h2 : (b - a) / (b - x) * Real.cos x
      < ((b - a) / (b - x)) * (Real.cos a + ((x - a) / (b - a)) * (Real.cos b - Real.cos a)) := by
    rw [← hid]
    linarith
  exact (mul_lt_mul_left hs).mp h2

/-- When the scaled angle truncates to `i` with a strictly negative kept
fraction, and the relevant grid segment lies in `[-π/2, π/2]`, the LUT cosine
strictly exceeds the exact cosine. -/
theorem fast_cos_above (θ : ℝ) (i : ℤ) (hi : cTrunc (θ * LUT_SCALE) = i)
    (hfrac : θ * LUT_SCALE < (i : ℝ))
    (hlo : -(π / 2) ≤ θ) (hhi : 2 * π * ((i : ℝ) + 1) / 1024 ≤ π / 2) :
    Real.cos θ < fast_cos θ := by
  have hpi : (0 : ℝ) < π := Real.pi_pos
  have hfr : lut_frac θ = θ * LUT_SCALE - (i : ℝ) := by
    rw [lut_frac, hi]
  have hfneg : lut_frac θ < 0 := by
    rw [hfr]
    linarith
  have hθd := lut_theta_decomp θ
  rw [hi] at hθd
  have hxa : θ < 2 * π * ((i : ℝ)) / 1024 := by
    rw [hθd]
    have hstep : (0 : ℝ) < 2 * π / 1024 := by positivity
    nlinarith
  have hab : 2 * π * ((i : ℝ)) / 1024 < 2 * π * ((i : ℝ) + 1) / 1024 := by
    have : (0 : ℝ) < 2 * π / 1024 := by positivity
    nlinarith
  have hchord := cos_chord_gt θ (2 * π * ((i : ℝ)) / 1024) (2 * π * ((i : ℝ) + 1) / 1024)
    hxa hab hlo hhi
  have hba : 2 * π * ((i : ℝ) + 1) / 1024 - 2 * π * ((i : ℝ)) / 1024 = 2 * π / 1024 := by
    ring
  have hfq : (θ - 2 * π * ((i : ℝ)) / 1024) / (2 * π * ((i : ℝ) + 1) / 1024
      - 2 * π * ((i : ℝ)) / 1024) = lut_frac θ := by
    rw [hba]
    have hθA : θ - 2 * π * ((i : ℝ)) / 1024 = lut_frac θ * (2 * π / 1024) := by
      linear_combination hθd
    rw [hθA]
    have hstep : (2 * π / 1024 : ℝ) ≠ 0 := by positivity
    field_simp
  rw [hfq] at hchord
  have hco : fast_cos θ
      = Real.cos (2 * π * ((i : ℝ)) / 1024)
        + lut_frac θ * (Real.cos (2 * π * ((i : ℝ) + 1) / 1024)
          - Real.cos (2 * π * ((i : ℝ)) / 1024)) := by
    rw [fast_cos, lut_interp_eq_chord Real.cos cos_lut (fun j => rfl) cos_int_period θ, hi]
  rw [hco]
  exact hchord

/-- When the scaled angle is exactly the integer grid index `i` and the grid
angle reduces to `θ`, the LUT cosine is exact. -/
theorem fast_cos_eq_exact (θ : ℝ) (i : ℤ) (hs : θ * LUT_SCALE = (i : ℝ))
    (hθ : 2 * π * ((i : ℝ)) / 1024 = θ) :
    fast_cos θ = Real.cos θ := by
  have hi : cTrunc (θ * LUT_SCALE) = i := by
    rw [hs, cTrunc]
    by_cases h : (0 : ℝ) ≤ (i : ℝ)
    · rw [if_pos h, Int.floor_intCast]
    · rw [if_neg h, Int.ceil_intCast]
  have hfr : lut_frac θ = 0 := by
    rw [lut_frac, hi, hs]
    ring
  rw [fast_cos, lut_interp_eq_chord Real.cos cos_lut (fun j => rfl) cos_int_period θ, hi,
    hfr, hθ]
  ring

theorem cTrunc_neg_eq (s : ℝ) (i : ℤ) (hneg : s < 0) (hlo : (i : ℝ) - 1 < s)
    (hhi : s ≤ (i : ℝ)) : cTrunc s = i := by
  rw [cTrunc, if_neg (not_le.mpr hneg), Int.ceil_eq_iff]
  exact ⟨hlo, hhi⟩

theorem c6_scaled (n : ℕ) :
    (-(π * (1 : ℝ) / 40) * (n : ℝ)) * LUT_SCALE = -(64 * (n : ℝ) / 5) := by
  have hL : LUT_SCALE = 1024 / (2 * π) := by
    rw [LUT_SCALE]
    norm_num [LUT_SIZE]
  rw [hL]
  have hpi : π ≠ 0 := Real.pi_ne_zero
  field_simp
  ring

theorem c6_term_strict (n : ℕ) (i : ℤ)
    (h1 : (i : ℝ) - 1 < -(64 * (n : ℝ) / 5)) (h2 : -(64 * (n : ℝ) / 5) < (i : ℝ))
    (hn0 : 0 < (n : ℝ)) (hn20 : (n : ℝ) ≤ 20) (hineg : (i : ℝ) + 1 ≤ 0) :
    Real.cos (-(π * (1 : ℝ) / 40) * (n : ℝ)) < fast_cos (-(π * (1 : ℝ) / 40) * (n : ℝ)) := by
  have hpi : (0 : ℝ) < π := Real.pi_pos
  have hsc := c6_scaled n
  have hi : cTrunc ((-(π * (1 : ℝ) / 40) * (n : ℝ)) * LUT_SCALE) = i := by
    rw [hsc]
    exact cTrunc_neg_eq _ i (by linarith) h1 (le_of_lt h2)
  have hfrac : (-(π * (1 : ℝ) / 40) * (n : ℝ)) * LUT_SCALE < (i : ℝ) := by
    rw [hsc]
    exact h2
  refine fast_cos_above _ i hi hfrac ?_ ?_
  · nlinarith
  · nlinarith

/-- C6 counterexample: for the one-bit pattern of value 1 (ten samples, all
equal to 1) at frequency bin `k = 1`, the real part of the spectrum that
`process_pattern_return_value` computes with exact trigonometry differs from
the value the TrigLUT evaluation would produce: at eight of the ten sample
angles the truncate-and-mask lookup extrapolates a chord strictly above the
cosine (cosine is strictly concave there), and at the remaining two angles
the two agree exactly, so the sums differ. -/
theorem pipeline_spectrum_not_lut :
    (pprv_spectrum (fun _ => 1) 1).1 ≠ (pprv_spectrum_lut (fun _ => 1) 1).1 := by
  have hbuf : ∀ n : ℕ, n < 10 → (((repeat_pattern (fun _ => 1) 10).getD n 0 : ℕ) : ℝ) = 1 := by
    intro n hn
    rw [repeat_pattern_getD (fun _ => 1) 10 n (by show n < 10 * 1; omega)]
    norm_num
  have h1 : (pprv_spectrum (fun _ => 1) 1).1
      = Finset.sum (Finset.range 10)
          (fun n => Real.cos (-(π * (1 : ℝ) / 40) * (n : ℝ))) := by
    rw [pprv_spectrum_eq_sum]
    dsimp only
    rw [show ((fun _ : ℕ => 1) 0 * 10) = 10 from rfl]
    refine Finset.sum_congr rfl (fun n hn => ?_)
    rw [hbuf n (Finset.mem_range.mp hn), one_mul, Nat.cast_one]
  have h2 : (pprv_spectrum_lut (fun _ => 1) 1).1
      = Finset.sum (Finset.range 10)
          (fun n => fast_cos (-(π * (1 : ℝ) / 40) * (n : ℝ))) := by
    rw [pprv_spectrum_lut_eq_sum]
    dsimp only
    rw [show ((fun _ : ℕ => 1) 0 * 10) = 10 from rfl]
    refine Finset.sum_congr rfl (fun n hn => ?_)
    rw [hbuf n (Finset.mem_range.mp hn), one_mul, Nat.cast_one]
  rw [h1, h2]
  apply ne_of_lt
  refine Finset.sum_lt_sum ?_ ?_
  · intro n hn
    have hn10 : n < 10 := Finset.mem_range.mp hn
    interval_cases n
    · have hθ0 : -(π * (1 : ℝ) / 40) * ((0 : ℕ) : ℝ) = 0 := by
        push_cast
        ring
      rw [hθ0]
      exact le_of_eq (fast_cos_eq_exact 0 0 (by push_cast; norm_num)
        (by push_cast; norm_num)).symm
    · exact le_of_lt (c6_term_strict 1 (-12) (by push_cast; norm_num)
        (by push_cast; norm_num) (by norm_num) (by norm_num) (by push_cast; norm_num))
    · exact le_of_lt (c6_term_strict 2 (-25) (by push_cast; norm_num)
        (by push_cast; norm_num) (by norm_num) (by norm_num) (by push_cast; norm_num))
    · exact le_of_lt (c6_term_strict 3 (-38) (by push_cast; norm_num)
        (by push_cast; norm_num) (by norm_num) (by norm_num) (by push_cast; norm_num))
    · exact le_of_lt (c6_term_strict 4 (-51) (by push_cast; norm_num)
        (by push_cast; norm_num) (by norm_num) (by norm_num) (by push_cast; norm_num))
    · refine le_of_eq (fast_cos_eq_exact (-(π * (1 : ℝ) / 40) * ((5 : ℕ) : ℝ)) (-64)
        ?_ ?_).symm
      · rw [c6_scaled 5]
        push_cast
        norm_num
      · push_cast
        ring
    · exact le_of_lt (c6_term_strict 6 (-76) (by push_cast; norm_num)
        (by push_cast; norm_num) (by norm_num) (by norm_num) (by push_cast; norm_num))
    · exact le_of_lt (c6_term_strict 7 (-89) (by push_cast; norm_num)
        (by push_cast; norm_num) (by norm_num) (by norm_num) (by push_cast; norm_num))
    · exact le_of_lt (c6_term_strict 8 (-102) (by push_cast; norm_num)
        (by push_cast; norm_num) (by norm_num) (by norm_num) (by push_cast; norm_num))
    · exact le_of_lt (c6_term_strict 9 (-115) (by push_cast; norm_num)
        (by push_cast; norm_num) (by norm_num) (by norm_num) (by push_cast; norm_num))
  · refine ⟨1, Finset.mem_range.mpr (by norm_num), ?_⟩
    exact c6_term_strict 1 (-12) (by push_cast; norm_num) (by push_cast; norm_num)
      (by norm_num) (by norm_num) (by push_cast; norm_num)
